import Mathlib

/-!
Verification of the Rust-Bit-Helper bit-stream codec.

The Rust sources (converter.rs, output.rs, input.rs) are shallowly embedded:
machine integers are modelled as Nat/Int with explicit reduction modulo 2^w
where the source relies on wrapping casts, Rust vectors/slices become Lean
lists, the BitOutput/BitInput traits become structures of the trait's required
methods, the traits' provided (default) methods become functions over such a
structure, and methods returning Result become functions into Except.
Rust panics (out-of-range arguments of the converter functions) are modelled
as Option results where a claim depends on them.
-/

set_option maxRecDepth 10000
set_option linter.unnecessarySeqFocus false

/-! ### Views between two's-complement bit patterns and mathematical integers -/

/-- The byte (as a natural number in [0,256)) whose two's-complement value is the i8 v.
This models the Rust cast `v as u8`. -/
def u8OfI8 (v : Int) : Nat := (v % 256).toNat

/-- The i8 (integer in [-128,128)) represented by the low 8 bits of n.
This models the Rust cast `n as i8`. -/
def i8OfBits (n : Nat) : Int := if n % 256 < 128 then (n % 256 : Nat) else (n % 256 : Nat) - 256

/-- The 16 low bits of the i16 v as a natural number, i.e. the cast `v as u16`. -/
def bits16OfI16 (v : Int) : Nat := (v % 65536).toNat

/-- The i16 represented by the low 16 bits of n, i.e. the cast `n as i16`. -/
def i16OfBits (n : Nat) : Int :=
  if n % 65536 < 32768 then (n % 65536 : Nat) else (n % 65536 : Nat) - 65536

/-- The 32 low bits of the i32 v as a natural number, i.e. the cast `v as u32`. -/
def bits32OfI32 (v : Int) : Nat := (v % 4294967296).toNat

/-- The i32 represented by the low 32 bits of n, i.e. the cast `n as i32`. -/
def i32OfBits (n : Nat) : Int :=
  if n % 4294967296 < 2147483648 then (n % 4294967296 : Nat)
  else (n % 4294967296 : Nat) - 4294967296

/-- The Rust cast `v as usize` of an i32 value v on a 64-bit platform:
sign extension to 64 bits, reinterpreted as an unsigned number. -/
def usizeOfI32 (v : Int) : Nat := (v % 18446744073709551616).toNat

/-! ### converter.rs: boolean octets -/

/-- converter.rs bools_to_i8: b1..b7 contribute 64,32,16,8,4,2,1 to the magnitude
and b8 is the sign bit (result is negated-minus-one when b8 is false). -/
def bools_to_i8 (b1 b2 b3 b4 b5 b6 b7 b8 : Bool) : Int :=
  let result : Int :=
    (if b1 then 64 else 0) + (if b2 then 32 else 0) + (if b3 then 16 else 0) +
    (if b4 then 8 else 0) + (if b5 then 4 else 0) + (if b6 then 2 else 0) +
    (if b7 then 1 else 0)
  if !b8 then -result - 1 else result

/-- converter.rs bool_slice_to_i8: same arithmetic as bools_to_i8 applied to the
first 8 elements of the slice. -/
def bool_slice_to_i8 (source : List Bool) : Int :=
  bools_to_i8 (source.getD 0 false) (source.getD 1 false) (source.getD 2 false)
    (source.getD 3 false) (source.getD 4 false) (source.getD 5 false)
    (source.getD 6 false) (source.getD 7 false)

/-- converter.rs bool_array_to_i8: identical body to bool_slice_to_i8. -/
def bool_array_to_i8 (source : List Bool) : Int := bool_slice_to_i8 source

/-- converter.rs i8_to_bool_array: entry 7 is the sign (true iff the byte is
non-negative, with -(byte+1) taken as magnitude otherwise), entries 0..6 are the
magnitude bits obtained by the source's sequential subtraction of 64,32,...,2
and the final equality test with 1. -/
def i8_to_bool_array (byte : Int) : List Bool :=
  let sign : Bool := decide (0 ≤ byte)
  let byte := if 0 ≤ byte then byte else -(byte + 1)
  let b0 : Bool := decide (64 ≤ byte)
  let byte := if 64 ≤ byte then byte - 64 else byte
  let b1 : Bool := decide (32 ≤ byte)
  let byte := if 32 ≤ byte then byte - 32 else byte
  let b2 : Bool := decide (16 ≤ byte)
  let byte := if 16 ≤ byte then byte - 16 else byte
  let b3 : Bool := decide (8 ≤ byte)
  let byte := if 8 ≤ byte then byte - 8 else byte
  let b4 : Bool := decide (4 ≤ byte)
  let byte := if 4 ≤ byte then byte - 4 else byte
  let b5 : Bool := decide (2 ≤ byte)
  let byte := if 2 ≤ byte then byte - 2 else byte
  [b0, b1, b2, b3, b4, b5, decide (byte = 1), sign]

/-! ### converter.rs: fixed-width byte composition (little-endian) -/

/-- converter.rs i8s_to_i16: byte1 is the low byte, byte2 the (sign-carrying) high byte. -/
def i8s_to_i16 (byte1 byte2 : Int) : Int := i16OfBits (u8OfI8 byte2 * 256 + u8OfI8 byte1)

/-- converter.rs i8s_to_u16. -/
def i8s_to_u16 (byte1 byte2 : Int) : Nat := u8OfI8 byte2 * 256 + u8OfI8 byte1

/-- converter.rs i8s_to_i32: byte1 is least significant. -/
def i8s_to_i32 (byte1 byte2 byte3 byte4 : Int) : Int :=
  i32OfBits (u8OfI8 byte4 * 16777216 + u8OfI8 byte3 * 65536 + u8OfI8 byte2 * 256 + u8OfI8 byte1)

/-- converter.rs i8s_to_u32. -/
def i8s_to_u32 (byte1 byte2 byte3 byte4 : Int) : Nat :=
  u8OfI8 byte4 * 16777216 + u8OfI8 byte3 * 65536 + u8OfI8 byte2 * 256 + u8OfI8 byte1

/-- converter.rs i16_to_i8_1, the cast `int16 as i8`. -/
def i16_to_i8_1 (int16 : Int) : Int := i8OfBits (bits16OfI16 int16)

/-- converter.rs i16_to_i8_2, the arithmetic shift `(int16 >> 8) as i8`. -/
def i16_to_i8_2 (int16 : Int) : Int := i8OfBits (bits16OfI16 int16 / 256)

/-- converter.rs u16_to_i8_1. -/
def u16_to_i8_1 (int16 : Nat) : Int := i8OfBits int16

/-- converter.rs u16_to_i8_2. -/
def u16_to_i8_2 (int16 : Nat) : Int := i8OfBits (int16 / 256)

/-- converter.rs i32_to_i8_1. -/
def i32_to_i8_1 (int32 : Int) : Int := i8OfBits (bits32OfI32 int32)

/-- converter.rs i32_to_i8_2. -/
def i32_to_i8_2 (int32 : Int) : Int := i8OfBits (bits32OfI32 int32 / 256)

/-- converter.rs i32_to_i8_3. -/
def i32_to_i8_3 (int32 : Int) : Int := i8OfBits (bits32OfI32 int32 / 65536)

/-- converter.rs i32_to_i8_4. -/
def i32_to_i8_4 (int32 : Int) : Int := i8OfBits (bits32OfI32 int32 / 16777216)

/-- converter.rs u32_to_i8_1. -/
def u32_to_i8_1 (int32 : Nat) : Int := i8OfBits int32

/-- converter.rs u32_to_i8_2. -/
def u32_to_i8_2 (int32 : Nat) : Int := i8OfBits (int32 / 256)

/-- converter.rs u32_to_i8_3. -/
def u32_to_i8_3 (int32 : Nat) : Int := i8OfBits (int32 / 65536)

/-- converter.rs u32_to_i8_4. -/
def u32_to_i8_4 (int32 : Nat) : Int := i8OfBits (int32 / 16777216)

/-! ### converter.rs: the sized signed integer codec

The source keeps a POWERS table with POWERS[i] = 2^i; the embedding writes the
power directly. -/

/-- The magnitude-writing loop of converter.rs signed_int_to_bools: for index in
1..=size_bits the source compares the running value with POWERS[size_bits-index]
and subtracts on success; here k counts the remaining iterations, so the first
comparison is against 2^(size_bits-1). -/
def mag_to_bools (unsigned : Nat) (k : Nat) : List Bool :=
  match k with
  | 0 => []
  | k + 1 =>
    if 2 ^ k ≤ unsigned then true :: mag_to_bools (unsigned - 2 ^ k) k
    else false :: mag_to_bools unsigned k

/-- converter.rs signed_int_to_bools (with start_index 0, the written booleans
returned as a list). The two panic guards check_bitcount and check_overflow are
modelled as none. For a negative integer the source computes the magnitude with
wrapping ops, which equals -integer - 1 for every i64 input. -/
def signed_int_to_bools (integer : Int) (bits : Nat) : Option (List Bool) :=
  let size_bits := bits - 1
  if 64 ≤ size_bits then none
  else if size_bits ≠ 63 ∧ ((2 ^ size_bits : Int) ≤ integer ∨ (2 ^ size_bits : Int) < -integer)
    then none
  else if 0 ≤ integer then some (true :: mag_to_bools integer.toNat size_bits)
  else some (false :: mag_to_bools (-integer - 1).toNat size_bits)

/-- The magnitude-reading loop of converter.rs bools_to_signed_int: the b-th
boolean (b from 1) contributes POWERS[size_bits - b]; here the list is already
shifted past the sign bit, so its head has weight 2^(size_bits-1). The source
accumulates in an i64, which cannot overflow because the sum is below 2^63. -/
def mag_from_bools (k : Nat) (bools : List Bool) : Int :=
  match k with
  | 0 => 0
  | k + 1 => (if bools.getD 0 false then (2 ^ k : Int) else 0) + mag_from_bools k bools.tail

/-- converter.rs bools_to_signed_int (with start_index 0). The check_bitcount
panic guard is modelled as none. -/
def bools_to_signed_int (bits : Nat) (bools : List Bool) : Option Int :=
  let size_bits := bits - 1
  if 64 ≤ size_bits then none
  else
    let integer := mag_from_bools size_bits (bools.drop 1)
    if !(bools.getD 0 false) then some (-integer - 1) else some integer

/-! ### The sized unsigned codec, which src/ calls but does not define -/

/-- Modelled from the spec: `sized_u64_to_bools` is called by add_direct_sized_u64
in output.rs and exercised by the tests in lib.rs, but its definition is not under
src/. Spec section 4.4: the bits of value are written from most-significant to
least-significant relative to `bits`, i.e. bit bits-1 of value first; `bits` may
be 0 (nothing is written). The written booleans are returned as a list. -/
def sized_u64_to_bools (value : Nat) (bits : Nat) : List Bool :=
  match bits with
  | 0 => []
  | b + 1 => value.testBit b :: sized_u64_to_bools value b

/-- Modelled from the spec: `bools_to_sized_u64` is called by read_direct_sized_u64
in input.rs and exercised by the tests in lib.rs, but its definition is not under
src/. Spec section 4.4: decoding sums, for each written bit in order,
2^(bits-1-position) if the bit is set. -/
def bools_to_sized_u64 (bits : Nat) (bools : List Bool) : Nat :=
  match bits with
  | 0 => 0
  | b + 1 => (if bools.getD 0 false then 2 ^ b else 0) + bools_to_sized_u64 b bools.tail

/-! ### output.rs get_required_bits -/

/-- The body of the doubling loop of output.rs get_required_bits, staged on the
loop's termination measure number + 1 - 2^power (which strictly decreases on
every iteration, so it bounds the remaining iteration count and the fuel is
never exhausted); the source's `current` variable is always 2^power, so the
loop is indexed by power alone here. -/
def get_required_bits_aux : Nat → Nat → Nat → Nat
  | 0, _, power => power
  | fuel + 1, number, power =>
    if 2 ^ power ≤ number then get_required_bits_aux fuel number (power + 1) else power

/-- The doubling loop of output.rs get_required_bits. -/
def get_required_bits_loop (number : Nat) (power : Nat) : Nat :=
  get_required_bits_aux (number + 1 - 2 ^ power) number power

/-- The staged fuel is irrelevant once it covers the termination measure. -/
theorem get_required_bits_aux_irrel (fuel₁ : Nat) : ∀ (fuel₂ number power : Nat),
    number + 1 - 2 ^ power ≤ fuel₁ → number + 1 - 2 ^ power ≤ fuel₂ →
    get_required_bits_aux fuel₁ number power = get_required_bits_aux fuel₂ number power := by
  induction fuel₁ with
  | zero =>
    intro fuel₂ number power h₁ h₂
    have hc : ¬ 2 ^ power ≤ number := by omega
    cases fuel₂ with
    | zero => rfl
    | succ m => rw [get_required_bits_aux, get_required_bits_aux, if_neg hc]
  | succ f ih =>
    intro fuel₂ number power h₁ h₂
    by_cases hc : 2 ^ power ≤ number
    · have hpow : 2 ^ (power + 1) = 2 ^ power * 2 := pow_succ 2 power
      have hone : 1 ≤ 2 ^ power := Nat.one_le_two_pow
      cases fuel₂ with
      | zero => omega
      | succ m =>
        rw [get_required_bits_aux, get_required_bits_aux, if_pos hc, if_pos hc]
        exact ih m number (power + 1) (by omega) (by omega)
    · cases fuel₂ with
      | zero => simp [get_required_bits_aux, hc]
      | succ m => simp [get_required_bits_aux, hc]

/-- The loop satisfies the source's recurrence: double and retry while the
current power of two is at most the number, else return the power. -/
theorem get_required_bits_loop_eq (number power : Nat) :
    get_required_bits_loop number power =
      if 2 ^ power ≤ number then get_required_bits_loop number (power + 1) else power := by
  unfold get_required_bits_loop
  have hone : 1 ≤ 2 ^ power := Nat.one_le_two_pow
  have hpow : 2 ^ (power + 1) = 2 ^ power * 2 := pow_succ 2 power
  cases hm : number + 1 - 2 ^ power with
  | zero =>
    rw [if_neg (by omega)]
    rfl
  | succ m =>
    rw [get_required_bits_aux]
    split
    · exact get_required_bits_aux_irrel m _ number (power + 1) (by omega) (by omega)
    · rfl

/-- output.rs get_required_bits: 64 when doubling the u64 would overflow, else the
smallest k with 2^k > number. -/
def get_required_bits (number : Nat) : Nat :=
  if 18446744073709551616 ≤ 2 * number then 64 else get_required_bits_loop number 0

/-! ### UTF-16, modelling Rust's str::encode_utf16 and String::from_utf16.
A Rust String is modelled as a list of Unicode scalar values (Lean Char). -/

/-- UTF-16 encoding of one scalar value: one code unit below 0x10000, else a
surrogate pair. -/
def encode_utf16_char (c : Char) : List Nat :=
  let n := c.toNat
  if n < 65536 then [n]
  else [55296 + (n - 65536) / 1024, 56320 + (n - 65536) % 1024]

/-- Models str::encode_utf16 over the characters of the string. -/
def encode_utf16 (s : List Char) : List Nat := (s.map encode_utf16_char).flatten

/-- Models String::from_utf16: rejects unpaired surrogates, combines
high/low surrogate pairs into a single scalar value. -/
def from_utf16 : List Nat → Option (List Char)
  | [] => some []
  | [u] =>
    if u < 55296 ∨ 57344 ≤ u then some [Char.ofNat u] else none
  | u :: u2 :: rest =>
    if u < 55296 ∨ 57344 ≤ u then
      match from_utf16 (u2 :: rest) with
      | some cs => some (Char.ofNat u :: cs)
      | none => none
    else if u < 56320 then
      if 56320 ≤ u2 ∧ u2 < 57344 then
        match from_utf16 rest with
        | some cs => some (Char.ofNat (65536 + (u - 55296) * 1024 + (u2 - 56320)) :: cs)
        | none => none
      else none
    else none

/-! ### output.rs: the BitOutput trait

The trait's required methods become the fields of a structure; its provided
(default) methods become functions over such a structure. ensure_extra_capacity
only reserves growable-buffer capacity for the owned writers, so it returns the
(possibly reallocated, contents-identical) state. -/

structure BitOutput (σ : Type) where
  add_direct_bool : σ → Bool → σ
  add_direct_i8 : σ → Int → σ
  ensure_extra_capacity : σ → Nat → σ
  terminate : σ → σ

/-- output.rs default add_direct_u8: add_direct_i8(integer as i8). -/
def BitOutput.add_direct_u8 {σ : Type} (T : BitOutput σ) (s : σ) (integer : Nat) : σ :=
  T.add_direct_i8 s (i8OfBits integer)

/-- output.rs default add_direct_i16: the two little-endian bytes in order. -/
def BitOutput.add_direct_i16 {σ : Type} (T : BitOutput σ) (s : σ) (integer : Int) : σ :=
  T.add_direct_i8 (T.add_direct_i8 s (i16_to_i8_1 integer)) (i16_to_i8_2 integer)

/-- output.rs default add_direct_u16. -/
def BitOutput.add_direct_u16 {σ : Type} (T : BitOutput σ) (s : σ) (integer : Nat) : σ :=
  T.add_direct_i8 (T.add_direct_i8 s (u16_to_i8_1 integer)) (u16_to_i8_2 integer)

/-- output.rs default add_direct_i32: the four little-endian bytes in order. -/
def BitOutput.add_direct_i32 {σ : Type} (T : BitOutput σ) (s : σ) (integer : Int) : σ :=
  T.add_direct_i8 (T.add_direct_i8 (T.add_direct_i8 (T.add_direct_i8 s
    (i32_to_i8_1 integer)) (i32_to_i8_2 integer)) (i32_to_i8_3 integer)) (i32_to_i8_4 integer)

/-- output.rs default add_direct_u32. -/
def BitOutput.add_direct_u32 {σ : Type} (T : BitOutput σ) (s : σ) (integer : Nat) : σ :=
  T.add_direct_i8 (T.add_direct_i8 (T.add_direct_i8 (T.add_direct_i8 s
    (u32_to_i8_1 integer)) (u32_to_i8_2 integer)) (u32_to_i8_3 integer)) (u32_to_i8_4 integer)

/-- output.rs default add_direct_bools_from_slice: every boolean in order. -/
def BitOutput.add_direct_bools_from_slice {σ : Type} (T : BitOutput σ) (s : σ)
    (bools : List Bool) : σ :=
  bools.foldl T.add_direct_bool s

/-- output.rs default add_direct_sized_u64: the source writes the bits into a
64-entry buffer via sized_u64_to_bools and appends buffer[0..bits], which is
exactly the list sized_u64_to_bools returns here. -/
def BitOutput.add_direct_sized_u64 {σ : Type} (T : BitOutput σ) (s : σ)
    (value : Nat) (bits : Nat) : σ :=
  T.add_direct_bools_from_slice s (sized_u64_to_bools value bits)

/-- output.rs default add_bool (checked). -/
def BitOutput.add_bool {σ : Type} (T : BitOutput σ) (s : σ) (value : Bool) : σ :=
  T.add_direct_bool (T.ensure_extra_capacity s 1) value

/-- output.rs default add_i8 (checked). -/
def BitOutput.add_i8 {σ : Type} (T : BitOutput σ) (s : σ) (value : Int) : σ :=
  T.add_direct_i8 (T.ensure_extra_capacity s 8) value

/-- output.rs default add_u8 (checked). -/
def BitOutput.add_u8 {σ : Type} (T : BitOutput σ) (s : σ) (value : Nat) : σ :=
  T.add_direct_u8 (T.ensure_extra_capacity s 8) value

/-- output.rs default add_i16 (checked). -/
def BitOutput.add_i16 {σ : Type} (T : BitOutput σ) (s : σ) (value : Int) : σ :=
  T.add_direct_i16 (T.ensure_extra_capacity s 16) value

/-- output.rs default add_u16 (checked). -/
def BitOutput.add_u16 {σ : Type} (T : BitOutput σ) (s : σ) (value : Nat) : σ :=
  T.add_direct_u16 (T.ensure_extra_capacity s 16) value

/-- output.rs default add_i32 (checked). -/
def BitOutput.add_i32 {σ : Type} (T : BitOutput σ) (s : σ) (value : Int) : σ :=
  T.add_direct_i32 (T.ensure_extra_capacity s 32) value

/-- output.rs default add_u32 (checked). -/
def BitOutput.add_u32 {σ : Type} (T : BitOutput σ) (s : σ) (value : Nat) : σ :=
  T.add_direct_u32 (T.ensure_extra_capacity s 32) value

/-- output.rs default add_sized_u64 (checked). -/
def BitOutput.add_sized_u64 {σ : Type} (T : BitOutput σ) (s : σ) (value bits : Nat) : σ :=
  T.add_direct_sized_u64 (T.ensure_extra_capacity s bits) value bits

/-- output.rs default add_direct_var_u64: a 6-bit (bits-1) field and the sized
payload; a value of 0 gets a literal false payload bit. -/
def BitOutput.add_direct_var_u64 {σ : Type} (T : BitOutput σ) (s : σ) (value : Nat) : σ :=
  let bits := get_required_bits value
  if 0 < bits then
    T.add_direct_sized_u64 (T.add_direct_sized_u64 s (bits - 1) 6) value bits
  else
    T.add_direct_bool (T.add_direct_sized_u64 s 0 6) false

/-- output.rs default add_var_u64 (checked). -/
def BitOutput.add_var_u64 {σ : Type} (T : BitOutput σ) (s : σ) (value : Nat) : σ :=
  let bits := get_required_bits value
  if 0 < bits then
    T.add_direct_sized_u64 (T.add_direct_sized_u64 (T.ensure_extra_capacity s (6 + bits))
      (bits - 1) 6) value bits
  else
    T.add_direct_bool (T.add_direct_sized_u64 (T.ensure_extra_capacity s 7) 0 6) false

/-- The per-code-unit write loop of output.rs add_string: each UTF-16 unit is
written as (unit - min) in bit_count bits, in order. -/
def add_string_units {σ : Type} (T : BitOutput σ) (s : σ) (units : List Nat)
    (minu bit_count : Nat) : σ :=
  units.foldl (fun acc u => T.add_direct_sized_u64 acc (u - minu) bit_count) s

/-- output.rs default add_string. None becomes a single zero byte; otherwise a
1-byte length+1 (below 254 UTF-16 units) or the 255 marker byte followed by one
32-bit length, then for a non-empty string the 16-bit minimum code unit, the
5-bit delta width, and (when the delta width is positive) the delta-encoded
units. The source's `string.len() > 0` byte-length test is the emptiness test. -/
def BitOutput.add_string {σ : Type} (T : BitOutput σ) (s : σ)
    (value : Option (List Char)) : σ :=
  match value with
  | none => T.add_i8 s 0
  | some string =>
    let s := T.ensure_extra_capacity s 29
    let length := (encode_utf16 string).length
    let s :=
      if length < 254 then T.add_direct_i8 s (i8OfBits (length + 1))
      else T.add_direct_i32 (T.add_direct_i8 (T.ensure_extra_capacity s 32) (-1))
        (i32OfBits length)
    if string ≠ [] then
      let units := encode_utf16 string
      let minu := units.min?.getD 0
      let maxu := units.max?.getD 0
      let difference := maxu - minu
      let bit_count := if difference = 0 then 0 else get_required_bits difference
      let s := T.add_direct_sized_u64 (T.add_direct_u16 s minu) bit_count 5
      if 0 < difference then
        add_string_units T (T.ensure_extra_capacity s (bit_count * length)) units minu bit_count
      else s
    else s

/-! ### output.rs: the writer backings -/

/-- output.rs BoolVecBitOutput. -/
structure BoolVecBitOutput where
  vector : List Bool
deriving DecidableEq

/-- The BitOutput impl of BoolVecBitOutput: bits are pushed directly; a byte is
pushed bit by bit through the default add_direct_bools_from_slice loop over
i8_to_bool_array; reserve and shrink_to_fit do not change the contents. -/
def BoolVecBitOutput.impl : BitOutput BoolVecBitOutput where
  add_direct_bool s value := ⟨s.vector ++ [value]⟩
  add_direct_i8 s value := ⟨(i8_to_bool_array value).foldl (fun v b => v ++ [b]) s.vector⟩
  ensure_extra_capacity s _ := s
  terminate s := s

/-- output.rs I8VecBitOutput. -/
structure I8VecBitOutput where
  vector : List Int
  byte_index : Nat
  bool_index : Nat
deriving DecidableEq

/-- The BitOutput impl of I8VecBitOutput. add_direct_bool with a partially
filled byte updates bit bool_index of the byte at byte_index in place.
add_direct_i8 with bool_index = k > 0 runs two copy loops: the current byte
receives bool_values[0..8-k) in its slots k..8 and a fresh byte receives
bool_values[8-k..8) in its slots 0..k, after which bool_index is back at k and
byte_index has advanced by one. ensure_extra_capacity only reserves capacity. -/
def I8VecBitOutput.impl : BitOutput I8VecBitOutput where
  add_direct_bool s value :=
    if s.bool_index = 0 then
      { vector := s.vector ++ [bool_array_to_i8 [value, false, false, false, false, false, false, false]],
        byte_index := s.byte_index, bool_index := s.bool_index + 1 }
    else
      let bools := (i8_to_bool_array (s.vector.getD s.byte_index 0)).set s.bool_index value
      let v := s.vector.set s.byte_index (bool_array_to_i8 bools)
      if s.bool_index + 1 = 8 then { vector := v, byte_index := s.byte_index + 1, bool_index := 0 }
      else { vector := v, byte_index := s.byte_index, bool_index := s.bool_index + 1 }
  add_direct_i8 s value :=
    if s.bool_index = 0 then
      { vector := s.vector ++ [value], byte_index := s.byte_index + 1, bool_index := 0 }
    else
      let bool_values := i8_to_bool_array value
      let current := i8_to_bool_array (s.vector.getD s.byte_index 0)
      let current := current.take s.bool_index ++ bool_values.take (8 - s.bool_index)
      let next := bool_values.drop (8 - s.bool_index) ++ List.replicate (8 - s.bool_index) false
      { vector := s.vector.set s.byte_index (bool_array_to_i8 current) ++ [bool_array_to_i8 next],
        byte_index := s.byte_index + 1, bool_index := s.bool_index }
  ensure_extra_capacity s _ := s
  terminate s := s

/-- output.rs U8VecBitOutput. -/
structure U8VecBitOutput where
  vector : List Nat
  byte_index : Nat
  bool_index : Nat
deriving DecidableEq

/-- The BitOutput impl of U8VecBitOutput: identical to the I8VecBitOutput impl
except that every stored byte goes through the `as u8` reinterpretation and
every loaded byte through `as i8`. -/
def U8VecBitOutput.impl : BitOutput U8VecBitOutput where
  add_direct_bool s value :=
    if s.bool_index = 0 then
      { vector := s.vector ++ [u8OfI8 (bool_array_to_i8 [value, false, false, false, false, false, false, false])],
        byte_index := s.byte_index, bool_index := s.bool_index + 1 }
    else
      let bools := (i8_to_bool_array (i8OfBits (s.vector.getD s.byte_index 0))).set s.bool_index value
      let v := s.vector.set s.byte_index (u8OfI8 (bool_array_to_i8 bools))
      if s.bool_index + 1 = 8 then { vector := v, byte_index := s.byte_index + 1, bool_index := 0 }
      else { vector := v, byte_index := s.byte_index, bool_index := s.bool_index + 1 }
  add_direct_i8 s value :=
    if s.bool_index = 0 then
      { vector := s.vector ++ [u8OfI8 value], byte_index := s.byte_index + 1, bool_index := 0 }
    else
      let bool_values := i8_to_bool_array value
      let current := i8_to_bool_array (i8OfBits (s.vector.getD s.byte_index 0))
      let current := current.take s.bool_index ++ bool_values.take (8 - s.bool_index)
      let next := bool_values.drop (8 - s.bool_index) ++ List.replicate (8 - s.bool_index) false
      { vector := s.vector.set s.byte_index (u8OfI8 (bool_array_to_i8 current)) ++ [u8OfI8 (bool_array_to_i8 next)],
        byte_index := s.byte_index + 1, bool_index := s.bool_index }
  ensure_extra_capacity s _ := s
  terminate s := s

deriving instance DecidableEq for Except

/-! ### input.rs: error values -/

/-- input.rs InputCapacityError. -/
structure InputCapacityError where
  current_capacity : Nat
  max_capacity : Nat
  requested_extra_capacity : Nat
deriving DecidableEq

/-- input.rs StringLengthError. -/
structure StringLengthError where
  read_length : Int
  max_length : Nat
deriving DecidableEq

/-- input.rs StringLengthError::negative. -/
def StringLengthError.negative (read_length : Int) : StringLengthError :=
  { read_length := read_length, max_length := 0 }

/-- input.rs StringLengthError::long. -/
def StringLengthError.long (read_length : Int) (max_length : Nat) : StringLengthError :=
  { read_length := read_length, max_length := max_length }

/-- input.rs BitInputError (InvalidStringError is a unit struct). -/
inductive BitInputError where
  | InputCapacity : InputCapacityError → BitInputError
  | InvalidString : BitInputError
  | StringLength : StringLengthError → BitInputError
deriving DecidableEq

/-! ### input.rs: the BitInput trait

The required methods become fields; the provided (default) methods become
functions over the structure. Reads thread the reader state explicitly;
checked reads return an Except paired with the state after the call. -/

structure BitInput (σ : Type) where
  read_direct_bool : σ → Bool × σ
  read_direct_i8 : σ → Int × σ
  ensure_extra_capacity : σ → Nat → Except InputCapacityError Unit × σ
  terminate : σ → σ

/-- input.rs default read_direct_bools (a fresh vector filled by amount
read_direct_bool calls, in order). -/
def BitInput.read_direct_bools {σ : Type} (T : BitInput σ) (s : σ) (amount : Nat) :
    List Bool × σ :=
  match amount with
  | 0 => ([], s)
  | n + 1 =>
    let (b, s₁) := T.read_direct_bool s
    let (rest, s₂) := T.read_direct_bools s₁ n
    (b :: rest, s₂)

/-- input.rs default read_direct_u8: read_direct_i8 cast to u8. -/
def BitInput.read_direct_u8 {σ : Type} (T : BitInput σ) (s : σ) : Nat × σ :=
  let (v, s₁) := T.read_direct_i8 s
  (u8OfI8 v, s₁)

/-- input.rs default read_direct_i16 (first read byte is the low byte). -/
def BitInput.read_direct_i16 {σ : Type} (T : BitInput σ) (s : σ) : Int × σ :=
  let (b1, s₁) := T.read_direct_i8 s
  let (b2, s₂) := T.read_direct_i8 s₁
  (i8s_to_i16 b1 b2, s₂)

/-- input.rs default read_direct_u16. -/
def BitInput.read_direct_u16 {σ : Type} (T : BitInput σ) (s : σ) : Nat × σ :=
  let (b1, s₁) := T.read_direct_i8 s
  let (b2, s₂) := T.read_direct_i8 s₁
  (i8s_to_u16 b1 b2, s₂)

/-- input.rs default read_direct_i32. -/
def BitInput.read_direct_i32 {σ : Type} (T : BitInput σ) (s : σ) : Int × σ :=
  let (b1, s₁) := T.read_direct_i8 s
  let (b2, s₂) := T.read_direct_i8 s₁
  let (b3, s₃) := T.read_direct_i8 s₂
  let (b4, s₄) := T.read_direct_i8 s₃
  (i8s_to_i32 b1 b2 b3 b4, s₄)

/-- input.rs default read_direct_u32. -/
def BitInput.read_direct_u32 {σ : Type} (T : BitInput σ) (s : σ) : Nat × σ :=
  let (b1, s₁) := T.read_direct_i8 s
  let (b2, s₂) := T.read_direct_i8 s₁
  let (b3, s₃) := T.read_direct_i8 s₂
  let (b4, s₄) := T.read_direct_i8 s₃
  (i8s_to_u32 b1 b2 b3 b4, s₄)

/-- Modelled from the spec: a checked `read_bool` is named as the mirror of
add_bool by output.rs and by spec section 4.3, but input.rs does not contain it.
Per section 4.3 a checked read calls ensure_extra_capacity for the operation's
bit width (1) and then delegates to the direct read. -/
def BitInput.read_bool {σ : Type} (T : BitInput σ) (s : σ) : Except BitInputError Bool × σ :=
  match T.ensure_extra_capacity s 1 with
  | (Except.error e, s₁) => (Except.error (BitInputError.InputCapacity e), s₁)
  | (Except.ok _, s₁) =>
    let (v, s₂) := T.read_direct_bool s₁
    (Except.ok v, s₂)

/-- input.rs default read_i8 (checked). -/
def BitInput.read_i8 {σ : Type} (T : BitInput σ) (s : σ) : Except BitInputError Int × σ :=
  match T.ensure_extra_capacity s 8 with
  | (Except.error e, s₁) => (Except.error (BitInputError.InputCapacity e), s₁)
  | (Except.ok _, s₁) =>
    let (v, s₂) := T.read_direct_i8 s₁
    (Except.ok v, s₂)

/-- input.rs default read_u8 (checked). -/
def BitInput.read_u8 {σ : Type} (T : BitInput σ) (s : σ) : Except BitInputError Nat × σ :=
  match T.ensure_extra_capacity s 8 with
  | (Except.error e, s₁) => (Except.error (BitInputError.InputCapacity e), s₁)
  | (Except.ok _, s₁) =>
    let (v, s₂) := T.read_direct_u8 s₁
    (Except.ok v, s₂)

/-- input.rs default read_i16 (checked). -/
def BitInput.read_i16 {σ : Type} (T : BitInput σ) (s : σ) : Except BitInputError Int × σ :=
  match T.ensure_extra_capacity s 16 with
  | (Except.error e, s₁) => (Except.error (BitInputError.InputCapacity e), s₁)
  | (Except.ok _, s₁) =>
    let (v, s₂) := T.read_direct_i16 s₁
    (Except.ok v, s₂)

/-- input.rs default read_u16 (checked). -/
def BitInput.read_u16 {σ : Type} (T : BitInput σ) (s : σ) : Except BitInputError Nat × σ :=
  match T.ensure_extra_capacity s 16 with
  | (Except.error e, s₁) => (Except.error (BitInputError.InputCapacity e), s₁)
  | (Except.ok _, s₁) =>
    let (v, s₂) := T.read_direct_u16 s₁
    (Except.ok v, s₂)

/-- input.rs default read_i32 (checked). -/
def BitInput.read_i32 {σ : Type} (T : BitInput σ) (s : σ) : Except BitInputError Int × σ :=
  match T.ensure_extra_capacity s 32 with
  | (Except.error e, s₁) => (Except.error (BitInputError.InputCapacity e), s₁)
  | (Except.ok _, s₁) =>
    let (v, s₂) := T.read_direct_i32 s₁
    (Except.ok v, s₂)

/-- input.rs default read_u32 (checked). -/
def BitInput.read_u32 {σ : Type} (T : BitInput σ) (s : σ) : Except BitInputError Nat × σ :=
  match T.ensure_extra_capacity s 32 with
  | (Except.error e, s₁) => (Except.error (BitInputError.InputCapacity e), s₁)
  | (Except.ok _, s₁) =>
    let (v, s₂) := T.read_direct_u32 s₁
    (Except.ok v, s₂)

/-- input.rs default read_direct_sized_u64: bits booleans into a 64-entry buffer
(modelled by the list of the bits read) decoded by bools_to_sized_u64. -/
def BitInput.read_direct_sized_u64 {σ : Type} (T : BitInput σ) (s : σ) (bits : Nat) :
    Nat × σ :=
  let (bools, s₁) := T.read_direct_bools s bits
  (bools_to_sized_u64 bits bools, s₁)

/-- input.rs default read_sized_u64 (checked). -/
def BitInput.read_sized_u64 {σ : Type} (T : BitInput σ) (s : σ) (bits : Nat) :
    Except BitInputError Nat × σ :=
  match T.ensure_extra_capacity s bits with
  | (Except.error e, s₁) => (Except.error (BitInputError.InputCapacity e), s₁)
  | (Except.ok _, s₁) =>
    let (v, s₂) := T.read_direct_sized_u64 s₁ bits
    (Except.ok v, s₂)

/-- input.rs default read_var_u64: a 6-bit field (bits used minus one) followed
by the sized payload. -/
def BitInput.read_var_u64 {σ : Type} (T : BitInput σ) (s : σ) :
    Except BitInputError Nat × σ :=
  match T.read_sized_u64 s 6 with
  | (Except.error e, s₁) => (Except.error e, s₁)
  | (Except.ok v, s₁) => T.read_sized_u64 s₁ (v + 1)

/-- The element loop of input.rs read_bool_vec (Vec::with_capacity then amount
pushes of read_direct_bool, the same reads as read_direct_bools). -/
def BitInput.read_bool_vec {σ : Type} (T : BitInput σ) (s : σ) :
    Except BitInputError (List Bool) × σ :=
  match T.read_i32 s with
  | (Except.error e, s₁) => (Except.error e, s₁)
  | (Except.ok v, s₁) =>
    let amount := usizeOfI32 v
    match T.ensure_extra_capacity s₁ amount with
    | (Except.error e, s₂) => (Except.error (BitInputError.InputCapacity e), s₂)
    | (Except.ok _, s₂) =>
      let (vec, s₃) := T.read_direct_bools s₂ amount
      (Except.ok vec, s₃)

/-- input.rs default read_direct_i8s (amount read_direct_i8 calls, in order). -/
def BitInput.read_direct_i8s {σ : Type} (T : BitInput σ) (s : σ) (amount : Nat) :
    List Int × σ :=
  match amount with
  | 0 => ([], s)
  | n + 1 =>
    let (b, s₁) := T.read_direct_i8 s
    let (rest, s₂) := T.read_direct_i8s s₁ n
    (b :: rest, s₂)

/-- input.rs read_i8_vec: a 32-bit length (cast to usize), a capacity check for
amount * 8 booleans, then the element loop. The usize product wraps modulo 2^64
(release overflow semantics), written explicitly here. -/
def BitInput.read_i8_vec {σ : Type} (T : BitInput σ) (s : σ) :
    Except BitInputError (List Int) × σ :=
  match T.read_i32 s with
  | (Except.error e, s₁) => (Except.error e, s₁)
  | (Except.ok v, s₁) =>
    let amount := usizeOfI32 v
    match T.ensure_extra_capacity s₁ (amount * 8 % 18446744073709551616) with
    | (Except.error e, s₂) => (Except.error (BitInputError.InputCapacity e), s₂)
    | (Except.ok _, s₂) =>
      let (vec, s₃) := T.read_direct_i8s s₂ amount
      (Except.ok vec, s₃)

/-- The per-code-unit read loop of input.rs read_string: each unit is
min + read_direct_sized_u64(bit_count) as u16; the u16 addition wraps
(release overflow semantics), written explicitly here. -/
def read_string_units {σ : Type} (T : BitInput σ) (s : σ)
    (length minu bit_count : Nat) : List Nat × σ :=
  match length with
  | 0 => ([], s)
  | n + 1 =>
    let (d, s₁) := T.read_direct_sized_u64 s bit_count
    let (rest, s₂) := read_string_units T s₁ n minu bit_count
    ((minu + d) % 65536 :: rest, s₂)

/-- The tail of input.rs read_string once the declared length is known: the
empty-string early return, the max_length check (before any unit storage is
allocated), then min, the 5-bit delta width and the units, ending in UTF-16
validation. `length as i32` in the error value is the 32-bit truncation. -/
def read_string_with_length {σ : Type} (T : BitInput σ) (max_length length : Nat) (s : σ) :
    Except BitInputError (Option (List Char)) × σ :=
  if length = 0 then (Except.ok (some []), s)
  else if max_length < length then
    (Except.error (BitInputError.StringLength
      (StringLengthError.long (i32OfBits length) max_length)), s)
  else match T.ensure_extra_capacity s 21 with
  | (Except.error e, s₁) => (Except.error (BitInputError.InputCapacity e), s₁)
  | (Except.ok _, s₁) =>
    let (minu, s₂) := T.read_direct_u16 s₁
    let (bit_count, s₃) := T.read_direct_sized_u64 s₂ 5
    if bit_count = 0 then
      match from_utf16 (List.replicate length minu) with
      | some str => (Except.ok (some str), s₃)
      | none => (Except.error BitInputError.InvalidString, s₃)
    else
      match T.ensure_extra_capacity s₃ (bit_count * length) with
      | (Except.error e, s₄) => (Except.error (BitInputError.InputCapacity e), s₄)
      | (Except.ok _, s₄) =>
        let (chars, s₅) := read_string_units T s₄ length minu bit_count
        match from_utf16 chars with
        | some str => (Except.ok (some str), s₅)
        | none => (Except.error BitInputError.InvalidString, s₅)

/-- input.rs read_string: the marker byte (as u8) is 0 for None; below 255 it is
length+1; otherwise one 32-bit integer is read and checked for negativity and
then a 32-bit integer is read again as the length (the source reads the length
field twice on this path). -/
def BitInput.read_string {σ : Type} (T : BitInput σ) (s : σ) (max_length : Nat) :
    Except BitInputError (Option (List Char)) × σ :=
  match T.read_i8 s with
  | (Except.error e, s₁) => (Except.error e, s₁)
  | (Except.ok v, s₁) =>
    let amount1 := u8OfI8 v
    if amount1 = 0 then (Except.ok none, s₁)
    else if amount1 < 255 then read_string_with_length T max_length (amount1 - 1) s₁
    else match T.read_i32 s₁ with
    | (Except.error e, s₂) => (Except.error e, s₂)
    | (Except.ok length32, s₂) =>
      if length32 < 0 then
        (Except.error (BitInputError.StringLength (StringLengthError.negative length32)), s₂)
      else match T.read_i32 s₂ with
      | (Except.error e, s₃) => (Except.error e, s₃)
      | (Except.ok length32b, s₃) =>
        read_string_with_length T max_length (usizeOfI32 length32b) s₃

/-! ### input.rs: the reader backings -/

/-- input.rs BoolSliceBitInput. -/
structure BoolSliceBitInput where
  bools : List Bool
  read_index : Nat
deriving DecidableEq

/-- The BitInput impl of BoolSliceBitInput. The source indexes the slice
directly (a panic when out of bounds); the model reads false out of bounds, and
every theorem below only reads in bounds. -/
def BoolSliceBitInput.impl : BitInput BoolSliceBitInput where
  read_direct_bool s :=
    (s.bools.getD s.read_index false, { s with read_index := s.read_index + 1 })
  read_direct_i8 s :=
    (bool_slice_to_i8 ((s.bools.drop s.read_index).take 8),
     { s with read_index := s.read_index + 8 })
  ensure_extra_capacity s additional :=
    if s.bools.length < s.read_index + additional then
      (Except.error { current_capacity := s.read_index, max_capacity := s.bools.length, requested_extra_capacity := additional }, s)
    else (Except.ok (), s)
  terminate s := { s with read_index := s.bools.length }

/-- input.rs I8VecBitInput. -/
structure I8VecBitInput where
  vector : List Int
  byte_index : Nat
  bool_index : Nat
deriving DecidableEq

/-- The BitInput impl of I8VecBitInput. read_direct_i8 with bool_index = k > 0
copies first_bools[k..8) and then second_bools[0..k) (the source's two while
loops), leaving bool_index at k and byte_index advanced by one. The remaining
count in ensure_extra_capacity is the source expression verbatim (including its
current_capacity and max_capacity fields). -/
def I8VecBitInput.impl : BitInput I8VecBitInput where
  read_direct_bool s :=
    if s.bool_index = 7 then
      (decide (0 ≤ s.vector.getD s.byte_index 0),
       { s with bool_index := 0, byte_index := s.byte_index + 1 })
    else
      ((i8_to_bool_array (s.vector.getD s.byte_index 0)).getD s.bool_index false,
       { s with bool_index := s.bool_index + 1 })
  read_direct_i8 s :=
    if s.bool_index = 0 then
      (s.vector.getD s.byte_index 0, { s with byte_index := s.byte_index + 1 })
    else
      let first_bools := i8_to_bool_array (s.vector.getD s.byte_index 0)
      let second_bools := i8_to_bool_array (s.vector.getD (s.byte_index + 1) 0)
      (bool_array_to_i8 (first_bools.drop s.bool_index ++ second_bools.take s.bool_index),
       { s with byte_index := s.byte_index + 1 })
  ensure_extra_capacity s boolean_amount :=
    let remaining := 8 - s.bool_index + 8 * (s.vector.length - s.byte_index)
    if remaining < boolean_amount then
      (Except.error { current_capacity := s.bool_index, max_capacity := s.vector.length, requested_extra_capacity := boolean_amount }, s)
    else (Except.ok (), s)
  terminate s := { s with vector := [] }

/-- input.rs U8VecBitInput. -/
structure U8VecBitInput where
  vector : List Nat
  byte_index : Nat
  bool_index : Nat
deriving DecidableEq

/-- The BitInput impl of U8VecBitInput: identical to the I8VecBitInput impl
except that loaded bytes go through the `as i8` reinterpretation, and the error
fields count bits (bool_index + 8 * byte_index and 8 * len). -/
def U8VecBitInput.impl : BitInput U8VecBitInput where
  read_direct_bool s :=
    if s.bool_index = 7 then
      (decide (0 ≤ i8OfBits (s.vector.getD s.byte_index 0)),
       { s with bool_index := 0, byte_index := s.byte_index + 1 })
    else
      ((i8_to_bool_array (i8OfBits (s.vector.getD s.byte_index 0))).getD s.bool_index false,
       { s with bool_index := s.bool_index + 1 })
  read_direct_i8 s :=
    if s.bool_index = 0 then
      (i8OfBits (s.vector.getD s.byte_index 0), { s with byte_index := s.byte_index + 1 })
    else
      let first_bools := i8_to_bool_array (i8OfBits (s.vector.getD s.byte_index 0))
      let second_bools := i8_to_bool_array (i8OfBits (s.vector.getD (s.byte_index + 1) 0))
      (bool_array_to_i8 (first_bools.drop s.bool_index ++ second_bools.take s.bool_index),
       { s with byte_index := s.byte_index + 1 })
  ensure_extra_capacity s boolean_amount :=
    let remaining := 8 - s.bool_index + 8 * (s.vector.length - s.byte_index)
    if remaining < boolean_amount then
      (Except.error { current_capacity := s.bool_index + 8 * s.byte_index, max_capacity := 8 * s.vector.length, requested_extra_capacity := boolean_amount }, s)
    else (Except.ok (), s)
  terminate s := { s with vector := [] }

/-! ### Supporting lemmas -/

/-- One unfolding step of the magnitude reader. -/
theorem mag_from_bools_cons (k : Nat) (b : Bool) (l : List Bool) :
    mag_from_bools (k + 1) (b :: l) = (if b then (2 : Int) ^ k else 0) + mag_from_bools k l := by
  simp [mag_from_bools]

/-- The greedy magnitude writer and the positional reader are inverse below 2^k. -/
theorem mag_from_to_bools (k : Nat) : ∀ u : Nat, u < 2 ^ k →
    mag_from_bools k (mag_to_bools u k) = (u : Int) := by
  induction k with
  | zero =>
    intro u hu
    interval_cases u
    rfl
  | succ k ih =>
    intro u hu
    have hpow : 2 ^ (k + 1) = 2 ^ k * 2 := pow_succ 2 k
    by_cases h : 2 ^ k ≤ u
    · rw [mag_to_bools, if_pos h, mag_from_bools_cons, ih _ (by omega)]
      simp only [if_true]
      push_cast [h]
      ring
    · rw [mag_to_bools, if_neg h, mag_from_bools_cons, ih u (by omega)]
      simp

/-! ### Claim C2: the sized signed integer codec -/

/-- C2: the sized signed codec is the stated sign-magnitude-with-offset
bijection and round-trips. For every bits in [1,64] and every value v in
[-2^(bits-1), 2^(bits-1)-1], signed_int_to_bools succeeds (no panic guard
fires), the first written boolean is true exactly for non-negative v, for
negative v the remaining booleans hold the magnitude -v-1, and
bools_to_signed_int applied to the written booleans returns v. -/
theorem signed_sized_codec_roundtrip (bits : Nat) (v : Int) (h1 : 1 ≤ bits) (h2 : bits ≤ 64)
    (h3 : -(2 ^ (bits - 1) : Int) ≤ v) (h4 : v < 2 ^ (bits - 1)) :
    ∃ l, signed_int_to_bools v bits = some l ∧
      l.getD 0 false = decide (0 ≤ v) ∧
      (v < 0 → mag_from_bools (bits - 1) l.tail = -v - 1) ∧
      bools_to_signed_int bits l = some v := by
  have hc : ((2 ^ (bits - 1) : Nat) : Int) = (2 : Int) ^ (bits - 1) := by push_cast; ring
  have hsb : ¬ 64 ≤ bits - 1 := by omega
  have hguard : ¬ (bits - 1 ≠ 63 ∧
      ((2 ^ (bits - 1) : Int) ≤ v ∨ (2 ^ (bits - 1) : Int) < -v)) := by
    rintro ⟨-, h | h⟩ <;> omega
  by_cases hv : 0 ≤ v
  · have hmag : mag_from_bools (bits - 1) (mag_to_bools v.toNat (bits - 1)) = v := by
      rw [mag_from_to_bools (bits - 1) v.toNat (by omega)]
      omega
    refine ⟨true :: mag_to_bools v.toNat (bits - 1), ?_, ?_, ?_, ?_⟩
    · rw [signed_int_to_bools, if_neg hsb, if_neg hguard, if_pos hv]
    · simp [hv]
    · omega
    · rw [bools_to_signed_int, if_neg hsb]
      simp only [List.drop_succ_cons, List.drop_zero, List.getD_cons_zero, Bool.not_true,
        Bool.false_eq_true, if_false, hmag]
  · have hmag : mag_from_bools (bits - 1) (mag_to_bools (-v - 1).toNat (bits - 1)) = -v - 1 := by
      rw [mag_from_to_bools (bits - 1) (-v - 1).toNat (by omega)]
      omega
    refine ⟨false :: mag_to_bools (-v - 1).toNat (bits - 1), ?_, ?_, ?_, ?_⟩
    · rw [signed_int_to_bools, if_neg hsb, if_neg hguard, if_neg hv]
    · simp [hv]
    · intro _
      rw [List.tail_cons, hmag]
    · rw [bools_to_signed_int, if_neg hsb]
      simp only [List.drop_succ_cons, List.drop_zero, List.getD_cons_zero, Bool.not_false,
        if_true, hmag, Option.some.injEq]
      ring

/-- C2 witness: the codec at bits = 4, v = -3. -/
theorem signed_sized_codec_roundtrip_witness :
    ∃ l, signed_int_to_bools (-3) 4 = some l ∧
      l.getD 0 false = decide ((0 : Int) ≤ -3) ∧
      ((-3 : Int) < 0 → mag_from_bools (4 - 1) l.tail = -(-3) - 1) ∧
      bools_to_signed_int 4 l = some (-3) :=
  signed_sized_codec_roundtrip 4 (-3) (by decide) (by decide) (by decide) (by decide)

/-! ### Claim C3: boolean-octet packing versus the sized signed scheme -/

/-- C3 counterexample: the claimed coincidence fails. bools_to_i8 takes its sign
bit LAST (b8) while bools_to_signed_int takes it FIRST, so at
(b1,...,b8) = (true,false,...,false) the byte is -65 but
bools_to_signed_int(8, [b1,...,b8]) is 0. -/
theorem bools_to_i8_ne_signed_int_at_same_positions :
    some (bools_to_i8 true false false false false false false false) ≠
      bools_to_signed_int 8 [true, false, false, false, false, false, false, false] := by
  decide

/-- C3 amended: the boolean octet packing coincides with the sized signed scheme
at bits = 8 once the sign bit, which bools_to_i8 reads from the last position
(b8) and the sized scheme from the first, is moved to the front: for every
8-tuple, bools_to_i8(b1,...,b8) = bools_to_signed_int(8, [b8,b1,...,b7]). -/
theorem bools_to_i8_eq_signed_int_sign_first (b1 b2 b3 b4 b5 b6 b7 b8 : Bool) :
    some (bools_to_i8 b1 b2 b3 b4 b5 b6 b7 b8) =
      bools_to_signed_int 8 [b8, b1, b2, b3, b4, b5, b6, b7] := by
  revert b1 b2 b3 b4 b5 b6 b7 b8
  decide

/-! ### Claim C4: the capacity boundary -/

/-- C4: evaluation of ensure_extra_capacity at the boundary. For the borrowed
boolean-slice reader the boundary is exact: with 8 bits remaining, a request of
8 succeeds and a request of 9 fails with an error reporting the requested 9.
For the byte-vector readers the source computes the remaining count as
8 - bool_index + 8*(len - byte_index), which exceeds the true remaining count
by 8: on a fresh one-byte input (8 bits remaining) requests of 9 and even 16
succeed, and only a request of 17 fails (its error does report the requested
amount). -/
theorem ensure_extra_capacity_boundary_evaluation :
    (BoolSliceBitInput.impl.ensure_extra_capacity ⟨List.replicate 8 false, 0⟩ 8).1 =
      Except.ok () ∧
    (BoolSliceBitInput.impl.ensure_extra_capacity ⟨List.replicate 8 false, 0⟩ 9).1 =
      Except.error ⟨0, 8, 9⟩ ∧
    (I8VecBitInput.impl.ensure_extra_capacity ⟨[0], 0, 0⟩ 9).1 = Except.ok () ∧
    (I8VecBitInput.impl.ensure_extra_capacity ⟨[0], 0, 0⟩ 16).1 = Except.ok () ∧
    (I8VecBitInput.impl.ensure_extra_capacity ⟨[0], 0, 0⟩ 17).1 = Except.error ⟨0, 1, 17⟩ ∧
    (U8VecBitInput.impl.ensure_extra_capacity ⟨[0], 0, 0⟩ 9).1 = Except.ok () ∧
    (U8VecBitInput.impl.ensure_extra_capacity ⟨[0], 0, 0⟩ 17).1 = Except.error ⟨0, 8, 17⟩ := by
  decide

/-! ### Claim C6: a failed capacity check leaves the reader unchanged -/

/-- C6: for each reader backing, when ensure_extra_capacity returns an error the
reader state (cursor position and backing buffer) is exactly the state before
the call. -/
theorem ensure_extra_capacity_error_preserves_state :
    (∀ (s : BoolSliceBitInput) (n : Nat) (e : InputCapacityError),
      (BoolSliceBitInput.impl.ensure_extra_capacity s n).1 = Except.error e →
      (BoolSliceBitInput.impl.ensure_extra_capacity s n).2 = s) ∧
    (∀ (s : I8VecBitInput) (n : Nat) (e : InputCapacityError),
      (I8VecBitInput.impl.ensure_extra_capacity s n).1 = Except.error e →
      (I8VecBitInput.impl.ensure_extra_capacity s n).2 = s) ∧
    (∀ (s : U8VecBitInput) (n : Nat) (e : InputCapacityError),
      (U8VecBitInput.impl.ensure_extra_capacity s n).1 = Except.error e →
      (U8VecBitInput.impl.ensure_extra_capacity s n).2 = s) := by
  refine ⟨fun s n e _ => ?_, fun s n e _ => ?_, fun s n e _ => ?_⟩ <;>
    simp only [BoolSliceBitInput.impl, I8VecBitInput.impl, U8VecBitInput.impl] <;>
    split <;> rfl

/-- C6 witness: a failing check on each backing, at a concrete state, leaves the
state unchanged. -/
theorem ensure_extra_capacity_error_preserves_state_witness :
    (BoolSliceBitInput.impl.ensure_extra_capacity ⟨[], 0⟩ 1).2 = ⟨[], 0⟩ ∧
    (I8VecBitInput.impl.ensure_extra_capacity ⟨[], 0, 0⟩ 9).2 = ⟨[], 0, 0⟩ ∧
    (U8VecBitInput.impl.ensure_extra_capacity ⟨[], 0, 0⟩ 9).2 = ⟨[], 0, 0⟩ :=
  ⟨ensure_extra_capacity_error_preserves_state.1 ⟨[], 0⟩ 1 ⟨0, 0, 1⟩ (by decide),
   ensure_extra_capacity_error_preserves_state.2.1 ⟨[], 0, 0⟩ 9 ⟨0, 0, 9⟩ (by decide),
   ensure_extra_capacity_error_preserves_state.2.2 ⟨[], 0, 0⟩ 9 ⟨0, 0, 9⟩ (by decide)⟩

/-! ### Claim C9: checked reads refine direct reads -/

/-- C9: over any BitInput implementation and any reader state on which
ensure_extra_capacity succeeds without moving the state, each checked read
(read_bool, read_i8, read_u8, read_i16, read_u16, read_i32, read_u32) returns
Ok of exactly the value the corresponding direct read returns from that state
and ends in the direct read's final state. read_bool itself is the
spec-modelled checked mirror of add_bool. -/
theorem checked_reads_refine_direct_reads {σ : Type} (T : BitInput σ) (s : σ)
    (h1 : T.ensure_extra_capacity s 1 = (Except.ok (), s))
    (h8 : T.ensure_extra_capacity s 8 = (Except.ok (), s))
    (h16 : T.ensure_extra_capacity s 16 = (Except.ok (), s))
    (h32 : T.ensure_extra_capacity s 32 = (Except.ok (), s)) :
    T.read_bool s = (Except.ok (T.read_direct_bool s).1, (T.read_direct_bool s).2) ∧
    T.read_i8 s = (Except.ok (T.read_direct_i8 s).1, (T.read_direct_i8 s).2) ∧
    T.read_u8 s = (Except.ok (T.read_direct_u8 s).1, (T.read_direct_u8 s).2) ∧
    T.read_i16 s = (Except.ok (T.read_direct_i16 s).1, (T.read_direct_i16 s).2) ∧
    T.read_u16 s = (Except.ok (T.read_direct_u16 s).1, (T.read_direct_u16 s).2) ∧
    T.read_i32 s = (Except.ok (T.read_direct_i32 s).1, (T.read_direct_i32 s).2) ∧
    T.read_u32 s = (Except.ok (T.read_direct_u32 s).1, (T.read_direct_u32 s).2) := by
  refine ⟨?_, ?_, ?_, ?_, ?_, ?_, ?_⟩
  · rw [BitInput.read_bool, h1]
  · rw [BitInput.read_i8, h8]
  · rw [BitInput.read_u8, h8]
  · rw [BitInput.read_i16, h16]
  · rw [BitInput.read_u16, h16]
  · rw [BitInput.read_i32, h32]
  · rw [BitInput.read_u32, h32]

/-- C9 witness: the refinement at the boolean-slice backing on a concrete
32-bit input. -/
theorem checked_reads_refine_direct_reads_witness :
    BoolSliceBitInput.impl.read_i32 ⟨List.replicate 32 true, 0⟩ =
      (Except.ok (BoolSliceBitInput.impl.read_direct_i32 ⟨List.replicate 32 true, 0⟩).1,
       (BoolSliceBitInput.impl.read_direct_i32 ⟨List.replicate 32 true, 0⟩).2) :=
  (checked_reads_refine_direct_reads BoolSliceBitInput.impl ⟨List.replicate 32 true, 0⟩
    (by decide) (by decide) (by decide) (by decide)).2.2.2.2.2.1

/-! ### Claim C10: negative sequence lengths -/

/-- Every value assembled by i8s_to_i32 lies in the i32 range. -/
theorem i8s_to_i32_range (b1 b2 b3 b4 : Int) :
    -2147483648 ≤ i8s_to_i32 b1 b2 b3 b4 ∧ i8s_to_i32 b1 b2 b3 b4 < 2147483648 := by
  unfold i8s_to_i32 i32OfBits
  have := Nat.mod_lt (u8OfI8 b4 * 16777216 + u8OfI8 b3 * 65536 + u8OfI8 b2 * 256 + u8OfI8 b1)
    (show 0 < 4294967296 by norm_num)
  split <;> omega

/-- C10: on the i8-vector backing, when the 32-bit length prefix of a
self-describing sequence read decodes to a negative value, read_i8_vec and
read_bool_vec cast it to usize (a number close to 2^64), the capacity check
fails, and the call returns an InputCapacityError with the reader left exactly
after the length prefix (no element is read and no element storage is filled);
there is no dedicated negative-length error. The bound on the backing vector
is physical (a Rust Vec holds at most 2^61 bytes). -/
theorem negative_length_vec_read_capacity_error (s : I8VecBitInput) (length32 : Int)
    (s₁ : I8VecBitInput)
    (hread : BitInput.read_i32 I8VecBitInput.impl s = (Except.ok length32, s₁))
    (hneg : length32 < 0) (hlen : s₁.vector.length ≤ 1152921504606846976) :
    (∃ e, BitInput.read_i8_vec I8VecBitInput.impl s =
      (Except.error (BitInputError.InputCapacity e), s₁)) ∧
    (∃ e, BitInput.read_bool_vec I8VecBitInput.impl s =
      (Except.error (BitInputError.InputCapacity e), s₁)) := by
  -- the decoded length is a genuine i32 value, so it is at least -2^31
  have hlow : -2147483648 ≤ length32 := by
    have hcopy := hread
    rw [BitInput.read_i32] at hcopy
    rcases hp : I8VecBitInput.impl.ensure_extra_capacity s 32 with ⟨r, s'⟩
    rw [hp] at hcopy
    cases r with
    | error e => simp at hcopy
    | ok u =>
      rcases hb1 : I8VecBitInput.impl.read_direct_i8 s' with ⟨b1, t1⟩
      rcases hb2 : I8VecBitInput.impl.read_direct_i8 t1 with ⟨b2, t2⟩
      rcases hb3 : I8VecBitInput.impl.read_direct_i8 t2 with ⟨b3, t3⟩
      rcases hb4 : I8VecBitInput.impl.read_direct_i8 t3 with ⟨b4, t4⟩
      simp only [BitInput.read_direct_i32, hb1, hb2, hb3, hb4, Prod.mk.injEq,
        Except.ok.injEq] at hcopy
      rw [← hcopy.1]
      exact (i8s_to_i32_range b1 b2 b3 b4).1
  have hamount : usizeOfI32 length32 = (length32 + 18446744073709551616).toNat := by
    unfold usizeOfI32
    omega
  constructor
  · refine ⟨⟨s₁.bool_index, s₁.vector.length,
      usizeOfI32 length32 * 8 % 18446744073709551616⟩, ?_⟩
    rw [BitInput.read_i8_vec, hread]
    simp only [I8VecBitInput.impl]
    rw [if_pos ?_]
    omega
  · refine ⟨⟨s₁.bool_index, s₁.vector.length, usizeOfI32 length32⟩, ?_⟩
    rw [BitInput.read_bool_vec, hread]
    simp only [I8VecBitInput.impl]
    rw [if_pos ?_]
    omega

/-- C10 witness: a stream whose length prefix decodes to -1; both vector reads
return a capacity error without reading elements. -/
theorem negative_length_vec_read_capacity_error_witness :
    (∃ e, BitInput.read_i8_vec I8VecBitInput.impl ⟨[-1, -1, -1, -1], 0, 0⟩ =
      (Except.error (BitInputError.InputCapacity e), ⟨[-1, -1, -1, -1], 4, 0⟩)) ∧
    (∃ e, BitInput.read_bool_vec I8VecBitInput.impl ⟨[-1, -1, -1, -1], 0, 0⟩ =
      (Except.error (BitInputError.InputCapacity e), ⟨[-1, -1, -1, -1], 4, 0⟩)) :=
  negative_length_vec_read_capacity_error ⟨[-1, -1, -1, -1], 0, 0⟩ (-1)
    ⟨[-1, -1, -1, -1], 4, 0⟩ (by decide) (by decide) (by decide)

/-! ### Lemmas on get_required_bits and the sized unsigned codec -/

/-- The doubling loop never returns less than its starting power. -/
theorem get_required_bits_loop_ge (number power : Nat) :
    power ≤ get_required_bits_loop number power := by
  rw [get_required_bits_loop_eq]
  split
  · exact le_trans (Nat.le_succ power) (get_required_bits_loop_ge number (power + 1))
  · exact le_refl power
termination_by number + 1 - 2 ^ power
decreasing_by
  have h1 : 1 ≤ 2 ^ power := Nat.one_le_two_pow
  omega

/-- The doubling loop stops at a power of two exceeding the number. -/
theorem get_required_bits_loop_gt (number power : Nat) :
    number < 2 ^ get_required_bits_loop number power := by
  rw [get_required_bits_loop_eq]
  split
  · exact get_required_bits_loop_gt number (power + 1)
  · omega
termination_by number + 1 - 2 ^ power
decreasing_by
  have h1 : 1 ≤ 2 ^ power := Nat.one_le_two_pow
  omega

/-- The doubling loop stops at the first sufficient power. -/
theorem get_required_bits_loop_le (number power m : Nat) (hm : number < 2 ^ m)
    (hp : power ≤ m) : get_required_bits_loop number power ≤ m := by
  rw [get_required_bits_loop_eq]
  split
  · rename_i hcur
    have hlt : power < m := by
      by_contra hc
      have hmono : 2 ^ m ≤ 2 ^ power := Nat.pow_le_pow_right (by norm_num) (by omega)
      omega
    exact get_required_bits_loop_le number (power + 1) m hm hlt
  · exact hp
termination_by number + 1 - 2 ^ power
decreasing_by
  have h1 : 1 ≤ 2 ^ power := Nat.one_le_two_pow
  omega

/-- The number fits in get_required_bits number bits. -/
theorem lt_two_pow_get_required_bits (number : Nat) (h : number < 18446744073709551616) :
    number < 2 ^ get_required_bits number := by
  rw [get_required_bits]
  split
  · omega
  · exact get_required_bits_loop_gt number 0

/-- get_required_bits never exceeds 64 on a u64. -/
theorem get_required_bits_le_64 (number : Nat) (h : number < 18446744073709551616) :
    get_required_bits number ≤ 64 := by
  rw [get_required_bits]
  split
  · omega
  · exact get_required_bits_loop_le number 0 64 (by omega) (by omega)

/-- get_required_bits is positive on a positive number. -/
theorem get_required_bits_pos (number : Nat) (h : 1 ≤ number) :
    1 ≤ get_required_bits number := by
  rw [get_required_bits]
  split
  · omega
  · rw [get_required_bits_loop_eq]
    rw [if_pos (by simpa using h)]
    exact get_required_bits_loop_ge number 1

/-- The sized writer emits exactly bits booleans. -/
theorem sized_u64_to_bools_length (value bits : Nat) :
    (sized_u64_to_bools value bits).length = bits := by
  induction bits with
  | zero => rfl
  | succ b ih => simp [sized_u64_to_bools, ih]

/-- Decoding the sized writer's output recovers the value modulo 2^bits. -/
theorem bools_to_sized_u64_of_to_bools (bits value : Nat) :
    bools_to_sized_u64 bits (sized_u64_to_bools value bits) = value % 2 ^ bits := by
  induction bits with
  | zero => simp [bools_to_sized_u64, sized_u64_to_bools, Nat.mod_one]
  | succ b ih =>
    rw [sized_u64_to_bools, bools_to_sized_u64]
    simp only [List.getD_cons_zero, List.tail_cons, ih]
    have ht : value.testBit b = decide (value / 2 ^ b % 2 = 1) := Nat.testBit_to_div_mod
    rw [ht, Nat.mod_pow_succ]
    rcases Nat.mod_two_eq_zero_or_one (value / 2 ^ b) with h0 | h0 <;> rw [h0] <;> simp <;>
      omega

/-! ### Writing to and reading from the boolean backings -/

/-- Folding push over a list appends it. -/
theorem foldl_push_eq_append (l : List Bool) : ∀ v : List Bool,
    l.foldl (fun acc b => acc ++ [b]) v = v ++ l := by
  induction l with
  | nil => intro v; simp
  | cons b l ih => intro v; simp [ih]

/-- The boolean-vector writer appends the booleans of a slice write. -/
theorem boolvec_add_direct_bools_from_slice (s : BoolVecBitOutput) (l : List Bool) :
    (BitOutput.add_direct_bools_from_slice BoolVecBitOutput.impl s l).vector =
      s.vector ++ l := by
  rw [BitOutput.add_direct_bools_from_slice]
  induction l generalizing s with
  | nil => simp
  | cons b l ih =>
    simp only [List.foldl_cons]
    rw [ih]
    simp [BoolVecBitOutput.impl]

/-- The boolean-vector writer appends the bits of a sized write. -/
theorem boolvec_add_direct_sized_u64 (s : BoolVecBitOutput) (value bits : Nat) :
    (BitOutput.add_direct_sized_u64 BoolVecBitOutput.impl s value bits).vector =
      s.vector ++ sized_u64_to_bools value bits :=
  boolvec_add_direct_bools_from_slice s (sized_u64_to_bools value bits)

/-- The stream written by add_var_u64 into a fresh boolean-vector writer: the
6-bit bits-minus-one field followed by the sized payload, a lone false payload
bit standing in for the payload of value 0. -/
theorem boolvec_add_var_u64 (v : Nat) :
    (BitOutput.add_var_u64 BoolVecBitOutput.impl ⟨[]⟩ v).vector =
      if 0 < get_required_bits v then
        sized_u64_to_bools (get_required_bits v - 1) 6 ++
          sized_u64_to_bools v (get_required_bits v)
      else
        sized_u64_to_bools 0 6 ++ [false] := by
  rw [BitOutput.add_var_u64]
  split
  · rw [boolvec_add_direct_sized_u64, boolvec_add_direct_sized_u64]
    simp [BoolVecBitOutput.impl]
  · have h : (BitOutput.add_direct_sized_u64 BoolVecBitOutput.impl
        (BoolVecBitOutput.impl.ensure_extra_capacity ⟨[]⟩ 7) 0 6).vector =
        sized_u64_to_bools 0 6 := by
      rw [boolvec_add_direct_sized_u64]
      simp [BoolVecBitOutput.impl]
    simp only [BoolVecBitOutput.impl] at h ⊢
    rw [h]

/-- Reading n booleans from the boolean-slice backing returns the n booleans at
the read position and advances the position by n. -/
theorem boolslice_read_direct_bools (n : Nat) : ∀ (xs : List Bool) (i : Nat),
    i + n ≤ xs.length →
    BitInput.read_direct_bools BoolSliceBitInput.impl ⟨xs, i⟩ n =
      ((xs.drop i).take n, ⟨xs, i + n⟩) := by
  induction n with
  | zero => intro xs i _; simp [BitInput.read_direct_bools]
  | succ n ih =>
    intro xs i h
    have hi : i < xs.length := by omega
    rw [BitInput.read_direct_bools]
    have hb : BoolSliceBitInput.impl.read_direct_bool ⟨xs, i⟩ =
        (xs.getD i false, ⟨xs, i + 1⟩) := rfl
    have hdrop : xs.drop i = xs[i] :: xs.drop (i + 1) := List.drop_eq_getElem_cons hi
    simp only [hb, ih xs (i + 1) (by omega), hdrop, List.take_succ_cons, Prod.mk.injEq,
      List.cons.injEq, BoolSliceBitInput.mk.injEq]
    simp [List.getD, List.getElem?_eq_getElem hi]
    try omega

/-- Reading a sized unsigned integer from the boolean-slice backing decodes the
bits at the read position. -/
theorem boolslice_read_direct_sized_u64 (xs : List Bool) (i bits : Nat)
    (h : i + bits ≤ xs.length) :
    BitInput.read_direct_sized_u64 BoolSliceBitInput.impl ⟨xs, i⟩ bits =
      (bools_to_sized_u64 bits ((xs.drop i).take bits), ⟨xs, i + bits⟩) := by
  rw [BitInput.read_direct_sized_u64]
  simp only [boolslice_read_direct_bools bits xs i h]

/-- The checked sized read on the boolean-slice backing, in bounds. -/
theorem boolslice_read_sized_u64 (xs : List Bool) (i bits : Nat)
    (h : i + bits ≤ xs.length) :
    BitInput.read_sized_u64 BoolSliceBitInput.impl ⟨xs, i⟩ bits =
      (Except.ok (bools_to_sized_u64 bits ((xs.drop i).take bits)), ⟨xs, i + bits⟩) := by
  rw [BitInput.read_sized_u64]
  have he : BoolSliceBitInput.impl.ensure_extra_capacity ⟨xs, i⟩ bits =
      (Except.ok (), ⟨xs, i⟩) := by
    simp only [BoolSliceBitInput.impl]
    rw [if_neg (by omega)]
  simp only [he, boolslice_read_direct_sized_u64 xs i bits h]

/-! ### Claim C5: self-describing variable-width integers round-trip -/

/-- C5: for every u64 value v, reading back what add_var_u64 wrote returns v and
consumes the whole stream; in particular v = 0 is encoded in exactly 6+1 bits, a
6-bit zero field followed by a literal false payload bit, and still decodes
to 0. Encoder and decoder are exercised through the boolean-vector writer and
the boolean-slice reader; the sized_u64 codec underneath is the spec-modelled
one. -/
theorem var_u64_roundtrip (v : Nat) (h : v < 18446744073709551616) :
    BitInput.read_var_u64 BoolSliceBitInput.impl
      ⟨(BitOutput.add_var_u64 BoolVecBitOutput.impl ⟨[]⟩ v).vector, 0⟩ =
      (Except.ok v,
       ⟨(BitOutput.add_var_u64 BoolVecBitOutput.impl ⟨[]⟩ v).vector,
        (BitOutput.add_var_u64 BoolVecBitOutput.impl ⟨[]⟩ v).vector.length⟩) ∧
    (v = 0 → (BitOutput.add_var_u64 BoolVecBitOutput.impl ⟨[]⟩ v).vector =
      [false, false, false, false, false, false, false]) := by
  by_cases hv : v = 0
  · subst hv
    constructor
    · decide
    · intro _
      decide
  · have hbits1 : 1 ≤ get_required_bits v := get_required_bits_pos v (by omega)
    have hbits64 : get_required_bits v ≤ 64 := get_required_bits_le_64 v h
    have hfit : v < 2 ^ get_required_bits v := lt_two_pow_get_required_bits v h
    have henc : (BitOutput.add_var_u64 BoolVecBitOutput.impl ⟨[]⟩ v).vector =
        sized_u64_to_bools (get_required_bits v - 1) 6 ++
          sized_u64_to_bools v (get_required_bits v) := by
      rw [boolvec_add_var_u64, if_pos (by omega)]
    refine ⟨?_, by omega⟩
    rw [henc]
    set bits := get_required_bits v with hbdef
    set enc := sized_u64_to_bools (bits - 1) 6 ++ sized_u64_to_bools v bits with hencdef
    have hlen : enc.length = 6 + bits := by
      rw [hencdef]
      simp [sized_u64_to_bools_length]
    have hlen6 : (sized_u64_to_bools (bits - 1) 6).length = 6 := sized_u64_to_bools_length _ 6
    have hseg1 : (enc.drop 0).take 6 = sized_u64_to_bools (bits - 1) 6 := by
      rw [hencdef]
      simp only [List.drop_zero]
      exact List.take_left' hlen6
    have hfield : bools_to_sized_u64 6 ((enc.drop 0).take 6) = bits - 1 := by
      rw [hseg1, bools_to_sized_u64_of_to_bools]
      have : bits - 1 < 2 ^ 6 := by omega
      omega
    have hb : bits - 1 + 1 = bits := by omega
    have hseg2 : (enc.drop (0 + 6)).take bits = sized_u64_to_bools v bits := by
      rw [hencdef]
      have hd : ((sized_u64_to_bools (bits - 1) 6 ++ sized_u64_to_bools v bits).drop (0 + 6)) =
          sized_u64_to_bools v bits := by
        simpa using List.drop_left' hlen6
      rw [hd]
      exact List.take_of_length_le (by simp [sized_u64_to_bools_length])
    rw [BitInput.read_var_u64]
    simp only [boolslice_read_sized_u64 enc 0 6 (by omega), hfield]
    rw [boolslice_read_sized_u64 enc (0 + 6) (bits - 1 + 1) (by rw [hlen]; omega), hb]
    rw [hseg2, bools_to_sized_u64_of_to_bools, Nat.mod_eq_of_lt hfit, hlen]

/-- C5 witness: the round trip at v = 5. -/
theorem var_u64_roundtrip_witness :
    BitInput.read_var_u64 BoolSliceBitInput.impl
      ⟨(BitOutput.add_var_u64 BoolVecBitOutput.impl ⟨[]⟩ 5).vector, 0⟩ =
      (Except.ok 5,
       ⟨(BitOutput.add_var_u64 BoolVecBitOutput.impl ⟨[]⟩ 5).vector,
        (BitOutput.add_var_u64 BoolVecBitOutput.impl ⟨[]⟩ 5).vector.length⟩) :=
  (var_u64_roundtrip 5 (by decide)).1

/-! ### Claim C1: the string codec round trip -/

/-- C1: evaluation of the string codec (boolean-vector writer, boolean-slice
reader). None, the empty string, a repeated-character string (bit_count = 0),
and a short multi-codepoint string with a surrogate pair all round-trip. But a
254-character string takes the extended-length path, where add_string writes
the 32-bit length once while read_string reads a 32-bit integer twice (once for
the sign check, once as the value), so decoding consumes the min/bit_count
fields as a second length and fails with a capacity error instead of returning
the string: the claimed round trip fails for every string of 254 or more UTF-16
units. -/
theorem string_codec_roundtrip_evaluation :
    (BitInput.read_string BoolSliceBitInput.impl
      ⟨(BitOutput.add_string BoolVecBitOutput.impl ⟨[]⟩ none).vector, 0⟩ 100).1 =
      Except.ok none ∧
    (BitInput.read_string BoolSliceBitInput.impl
      ⟨(BitOutput.add_string BoolVecBitOutput.impl ⟨[]⟩ (some [])).vector, 0⟩ 100).1 =
      Except.ok (some []) ∧
    (BitInput.read_string BoolSliceBitInput.impl
      ⟨(BitOutput.add_string BoolVecBitOutput.impl ⟨[]⟩
        (some (List.replicate 3 'a'))).vector, 0⟩ 100).1 =
      Except.ok (some (List.replicate 3 'a')) ∧
    (BitInput.read_string BoolSliceBitInput.impl
      ⟨(BitOutput.add_string BoolVecBitOutput.impl ⟨[]⟩
        (some ['𝄞', 'm', 'u', 's', 'i', 'c'])).vector, 0⟩ 7).1 =
      Except.ok (some ['𝄞', 'm', 'u', 's', 'i', 'c']) ∧
    (BitInput.read_string BoolSliceBitInput.impl
      ⟨(BitOutput.add_string BoolVecBitOutput.impl ⟨[]⟩
        (some (List.replicate 254 'a'))).vector, 0⟩ 1000).1 =
      Except.error (BitInputError.InputCapacity ⟨40, 61, 32⟩) := by
  refine ⟨by decide, by decide, by decide, by decide, by decide⟩

/-! ### Reading bytes and 32-bit integers from the boolean-slice backing -/

/-- Reading back a byte written as its boolean octet returns the byte
(all 256 cases). -/
theorem bool_slice_to_i8_i8_to_bool_array : ∀ n : Nat, n < 256 →
    bool_slice_to_i8 (i8_to_bool_array (i8OfBits n)) = i8OfBits n := by
  decide

/-- Reinterpreting the low byte both ways is the identity on bit patterns. -/
theorem u8OfI8_i8OfBits (n : Nat) : u8OfI8 (i8OfBits n) = n % 256 := by
  unfold u8OfI8 i8OfBits
  split <;> omega

/-- i8OfBits only looks at the low byte. -/
theorem i8OfBits_mod (n : Nat) : i8OfBits (n % 256) = i8OfBits n := by
  unfold i8OfBits
  rw [Nat.mod_mod_of_dvd n (by norm_num)]

/-- The boolean octet of a byte has 8 entries. -/
theorem i8_to_bool_array_length (b : Int) : (i8_to_bool_array b).length = 8 := rfl

/-- A direct byte read from the boolean-slice backing, when the 8 booleans at
the read position are the octet of a byte. -/
theorem boolslice_read_direct_i8_at (xs : List Bool) (i n : Nat) (hn : n < 256)
    (hseg : (xs.drop i).take 8 = i8_to_bool_array (i8OfBits n)) :
    BoolSliceBitInput.impl.read_direct_i8 ⟨xs, i⟩ = (i8OfBits n, ⟨xs, i + 8⟩) := by
  show (bool_slice_to_i8 ((xs.drop i).take 8), (⟨xs, i + 8⟩ : BoolSliceBitInput)) = _
  rw [hseg, bool_slice_to_i8_i8_to_bool_array n hn]

/-- The 32 booleans written for an i32: its four little-endian byte octets. -/
def i32bools (v : Int) : List Bool :=
  i8_to_bool_array (i32_to_i8_1 v) ++ i8_to_bool_array (i32_to_i8_2 v) ++
    i8_to_bool_array (i32_to_i8_3 v) ++ i8_to_bool_array (i32_to_i8_4 v)

/-- Recomposing the four byte projections of an i32 returns the i32. -/
theorem i8s_to_i32_of_projections (v : Int) (h1 : -2147483648 ≤ v) (h2 : v < 2147483648) :
    i8s_to_i32 (i32_to_i8_1 v) (i32_to_i8_2 v) (i32_to_i8_3 v) (i32_to_i8_4 v) = v := by
  unfold i8s_to_i32 i32_to_i8_1 i32_to_i8_2 i32_to_i8_3 i32_to_i8_4
  rw [u8OfI8_i8OfBits, u8OfI8_i8OfBits, u8OfI8_i8OfBits, u8OfI8_i8OfBits]
  unfold i32OfBits bits32OfI32
  have hlt : (v % 4294967296).toNat < 4294967296 := by omega
  split <;> omega

/-- Extracting an octet-aligned sub-segment of a 32-bit segment. -/
theorem seg_extract (xs : List Bool) (i : Nat) (t : List Bool)
    (ht : (xs.drop i).take 32 = t) (k : Nat) (hk : k + 8 ≤ 32) :
    (xs.drop (i + k)).take 8 = (t.drop k).take 8 := by
  rw [← ht, List.drop_take, List.take_take]
  have hmin : min 8 (32 - k) = 8 := by omega
  rw [hmin, List.drop_drop]

/-- A direct i32 read from the boolean-slice backing, when the 32 booleans at
the read position are the little-endian octets of an i32. -/
theorem boolslice_read_direct_i32_at (xs : List Bool) (i : Nat) (v : Int)
    (h1 : -2147483648 ≤ v) (h2 : v < 2147483648)
    (hseg : (xs.drop i).take 32 = i32bools v) :
    BitInput.read_direct_i32 BoolSliceBitInput.impl ⟨xs, i⟩ = (v, ⟨xs, i + 32⟩) := by
  have hlen8 : ∀ b : Int, (i8_to_bool_array b).length = 8 := i8_to_bool_array_length
  have hbyte : ∀ (j : Nat) (w : Int), (xs.drop j).take 8 = i8_to_bool_array w →
      -128 ≤ w → w < 128 →
      BoolSliceBitInput.impl.read_direct_i8 ⟨xs, j⟩ = (w, ⟨xs, j + 8⟩) := by
    intro j w hw hlo hhi
    have hform : i8OfBits (u8OfI8 w) = w := by
      unfold i8OfBits u8OfI8
      split <;> omega
    have hn : u8OfI8 w < 256 := by
      unfold u8OfI8
      omega
    have := boolslice_read_direct_i8_at xs j (u8OfI8 w) hn (by rw [hform]; exact hw)
    rw [hform] at this
    exact this
  have hrange : ∀ n : Nat, -128 ≤ i8OfBits n ∧ i8OfBits n < 128 := by
    intro n
    unfold i8OfBits
    split <;> omega
  have hs1 : (xs.drop (i + 0)).take 8 = i8_to_bool_array (i32_to_i8_1 v) := by
    rw [seg_extract xs i (i32bools v) hseg 0 (by omega)]
    rw [i32bools]
    simp only [List.drop_zero, List.append_assoc]
    exact List.take_left' (hlen8 _)
  have hs2 : (xs.drop (i + 8)).take 8 = i8_to_bool_array (i32_to_i8_2 v) := by
    rw [seg_extract xs i (i32bools v) hseg 8 (by omega)]
    rw [i32bools]
    simp only [List.append_assoc]
    rw [List.drop_left' (hlen8 _)]
    exact List.take_left' (hlen8 _)
  have hs3 : (xs.drop (i + 16)).take 8 = i8_to_bool_array (i32_to_i8_3 v) := by
    rw [seg_extract xs i (i32bools v) hseg 16 (by omega)]
    rw [i32bools]
    simp only [List.append_assoc]
    have h16 : (16 : Nat) = 8 + 8 := by omega
    rw [h16, ← List.drop_drop, List.drop_left' (hlen8 _), List.drop_left' (hlen8 _)]
    exact List.take_left' (hlen8 _)
  have hs4 : (xs.drop (i + 24)).take 8 = i8_to_bool_array (i32_to_i8_4 v) := by
    rw [seg_extract xs i (i32bools v) hseg 24 (by omega)]
    rw [i32bools]
    simp only [List.append_assoc]
    have h24 : (24 : Nat) = 8 + (8 + 8) := by omega
    rw [h24, ← List.drop_drop, ← List.drop_drop, List.drop_left' (hlen8 _),
      List.drop_left' (hlen8 _), List.drop_left' (hlen8 _)]
    exact List.take_of_length_le (by rw [hlen8])
  have hi0 : i + 0 = i := by omega
  rw [hi0] at hs1
  have hb1 := hbyte i (i32_to_i8_1 v) hs1 (hrange _).1 (hrange _).2
  have hb2 := hbyte (i + 8) (i32_to_i8_2 v) hs2 (hrange _).1 (hrange _).2
  have hb3 := hbyte (i + 16) (i32_to_i8_3 v) hs3 (hrange _).1 (hrange _).2
  have hb4 := hbyte (i + 24) (i32_to_i8_4 v) hs4 (hrange _).1 (hrange _).2
  rw [BitInput.read_direct_i32]
  have h88 : i + 8 + 8 = i + 16 := by omega
  have h168 : i + 16 + 8 = i + 24 := by omega
  have h248 : i + 24 + 8 = i + 32 := by omega
  rw [hb1]
  simp only [h88, h168, h248, hb2, hb3, hb4]
  rw [i8s_to_i32_of_projections v h1 h2]

/-- The checked byte read at a position holding a byte octet. -/
theorem boolslice_read_i8_at (xs : List Bool) (i n : Nat) (hn : n < 256)
    (hseg : (xs.drop i).take 8 = i8_to_bool_array (i8OfBits n)) (hlen : i + 8 ≤ xs.length) :
    BitInput.read_i8 BoolSliceBitInput.impl ⟨xs, i⟩ =
      (Except.ok (i8OfBits n), ⟨xs, i + 8⟩) := by
  rw [BitInput.read_i8]
  have he : BoolSliceBitInput.impl.ensure_extra_capacity ⟨xs, i⟩ 8 =
      (Except.ok (), ⟨xs, i⟩) := by
    simp only [BoolSliceBitInput.impl]
    rw [if_neg (by omega)]
  simp only [he, boolslice_read_direct_i8_at xs i n hn hseg]

/-- The checked i32 read at a position holding the octets of an i32. -/
theorem boolslice_read_i32_at (xs : List Bool) (i : Nat) (v : Int)
    (h1 : -2147483648 ≤ v) (h2 : v < 2147483648)
    (hseg : (xs.drop i).take 32 = i32bools v) (hlen : i + 32 ≤ xs.length) :
    BitInput.read_i32 BoolSliceBitInput.impl ⟨xs, i⟩ =
      (Except.ok v, ⟨xs, i + 32⟩) := by
  rw [BitInput.read_i32]
  have he : BoolSliceBitInput.impl.ensure_extra_capacity ⟨xs, i⟩ 32 =
      (Except.ok (), ⟨xs, i⟩) := by
    simp only [BoolSliceBitInput.impl]
    rw [if_neg (by omega)]
  simp only [he, boolslice_read_direct_i32_at xs i v h1 h2 hseg]

/-- Once the declared length passes the max_length check, no later step of the
string decoder can produce a StringLength error. -/
theorem read_string_with_length_no_length_error {σ : Type} (T : BitInput σ)
    (max_length length : Nat) (s : σ) (hl : length ≤ max_length) (e : StringLengthError) :
    (read_string_with_length T max_length length s).1 ≠
      Except.error (BitInputError.StringLength e) := by
  rw [read_string_with_length]
  by_cases h0 : length = 0
  · simp [h0]
  · rw [if_neg h0, if_neg (by omega)]
    rcases he : T.ensure_extra_capacity s 21 with ⟨r, s₁⟩
    cases r with
    | error err => simp
    | ok u =>
      cases u
      rcases hu : T.read_direct_u16 s₁ with ⟨minu, s₂⟩
      rcases hbc : T.read_direct_sized_u64 s₂ 5 with ⟨bc, s₃⟩
      simp only [hu, hbc]
      split
      · split <;> simp
      · rcases he2 : T.ensure_extra_capacity s₃ (bc * length) with ⟨r2, s₄⟩
        cases r2 with
        | error err2 => simp
        | ok u2 =>
          cases u2
          rcases hc : read_string_units T s₄ length minu bc with ⟨chars, s₅⟩
          simp only [hc]
          split <;> simp

/-- i32OfBits is the identity below 2^31. -/
theorem i32OfBits_of_lt (n : Nat) (h : n < 2147483648) : i32OfBits n = n := by
  unfold i32OfBits
  omega

/-- usizeOfI32 is toNat on non-negative i32 values. -/
theorem usizeOfI32_of_nonneg (v : Int) (h0 : 0 ≤ v) (h31 : v < 2147483648) :
    usizeOfI32 v = v.toNat := by
  unfold usizeOfI32
  omega

/-- The 32 octet booleans of an i32. -/
theorem i32bools_length (v : Int) : (i32bools v).length = 32 := rfl

/-! ### Claim C7: the string length bound -/

/-- C7: read_string rejects a declared length exceeding max_length and only
then; on the short path (declared length L in [1,253] carried by the marker
byte L+1) and on the extended path (marker 255, a non-negative first 32-bit
field, and the second 32-bit field L2 as the declared length), a declared
length within max_length never produces a StringLength error, while a declared
length above max_length returns the StringLength error with the reader still
positioned right after the length prefix (8 bits, resp. 72 bits), before the
code-unit storage is touched. -/
theorem read_string_length_bound (L max_length : Nat) (rest rest2 : List Bool)
    (a L2 : Int) (hL1 : 1 ≤ L) (hL253 : L ≤ 253)
    (ha0 : 0 ≤ a) (ha31 : a < 2147483648) (hL20 : 0 ≤ L2) (hL231 : L2 < 2147483648) :
    (max_length < L →
      BitInput.read_string BoolSliceBitInput.impl
        ⟨i8_to_bool_array (i8OfBits (L + 1)) ++ rest, 0⟩ max_length =
        (Except.error (BitInputError.StringLength ⟨(L : Int), max_length⟩),
         ⟨i8_to_bool_array (i8OfBits (L + 1)) ++ rest, 8⟩)) ∧
    (L ≤ max_length → ∀ e,
      (BitInput.read_string BoolSliceBitInput.impl
        ⟨i8_to_bool_array (i8OfBits (L + 1)) ++ rest, 0⟩ max_length).1 ≠
        Except.error (BitInputError.StringLength e)) ∧
    (max_length < L2.toNat →
      BitInput.read_string BoolSliceBitInput.impl
        ⟨i8_to_bool_array (i8OfBits 255) ++ i32bools a ++ i32bools L2 ++ rest2, 0⟩
          max_length =
        (Except.error (BitInputError.StringLength ⟨L2, max_length⟩),
         ⟨i8_to_bool_array (i8OfBits 255) ++ i32bools a ++ i32bools L2 ++ rest2, 72⟩)) ∧
    (L2.toNat ≤ max_length → ∀ e,
      (BitInput.read_string BoolSliceBitInput.impl
        ⟨i8_to_bool_array (i8OfBits 255) ++ i32bools a ++ i32bools L2 ++ rest2, 0⟩
          max_length).1 ≠
        Except.error (BitInputError.StringLength e)) := by
  -- the short stream
  set xs := i8_to_bool_array (i8OfBits (L + 1)) ++ rest with hxs
  have hxslen : 8 ≤ xs.length := by
    rw [hxs]
    simp [List.length_append, i8_to_bool_array_length]
  have hxseg : (xs.drop 0).take 8 = i8_to_bool_array (i8OfBits (L + 1)) := by
    rw [hxs]
    simp only [List.drop_zero]
    exact List.take_left' (i8_to_bool_array_length _)
  have hmark : BitInput.read_i8 BoolSliceBitInput.impl ⟨xs, 0⟩ =
      (Except.ok (i8OfBits (L + 1)), ⟨xs, 8⟩) := by
    simpa using boolslice_read_i8_at xs 0 (L + 1) (by omega) hxseg (by omega)
  have ham : u8OfI8 (i8OfBits (L + 1)) = L + 1 := by
    rw [u8OfI8_i8OfBits]
    omega
  have hshort : BitInput.read_string BoolSliceBitInput.impl ⟨xs, 0⟩ max_length =
      read_string_with_length BoolSliceBitInput.impl max_length L ⟨xs, 8⟩ := by
    rw [BitInput.read_string]
    simp only [hmark, ham]
    rw [if_neg (by omega), if_pos (by omega)]
    simp
  -- the extended stream
  set ys := i8_to_bool_array (i8OfBits 255) ++ i32bools a ++ i32bools L2 ++ rest2 with hys
  have hyslen : 72 ≤ ys.length := by
    rw [hys]
    simp [List.length_append, i8_to_bool_array_length, i32bools_length]
    omega
  have hyseg : (ys.drop 0).take 8 = i8_to_bool_array (i8OfBits 255) := by
    rw [hys]
    simp only [List.drop_zero]
    exact List.take_left' (i8_to_bool_array_length _)
  have hymark : BitInput.read_i8 BoolSliceBitInput.impl ⟨ys, 0⟩ =
      (Except.ok (i8OfBits 255), ⟨ys, 8⟩) := by
    simpa using boolslice_read_i8_at ys 0 255 (by omega) hyseg (by omega)
  have hdrop8 : ys.drop 8 = i32bools a ++ i32bools L2 ++ rest2 := by
    rw [hys, List.append_assoc, List.append_assoc]
    rw [List.drop_left' (i8_to_bool_array_length _)]
    rw [List.append_assoc]
  have hsega : (ys.drop 8).take 32 = i32bools a := by
    rw [hdrop8, List.append_assoc]
    exact List.take_left' (i32bools_length _)
  have hreada : BitInput.read_i32 BoolSliceBitInput.impl ⟨ys, 8⟩ =
      (Except.ok a, ⟨ys, 40⟩) := by
    simpa using boolslice_read_i32_at ys 8 a (by omega) (by omega) hsega (by omega)
  have hdrop40 : ys.drop 40 = i32bools L2 ++ rest2 := by
    have h40 : (40 : Nat) = 8 + 32 := by omega
    rw [h40, ← List.drop_drop, hdrop8, List.append_assoc]
    exact List.drop_left' (i32bools_length _)
  have hsegL2 : (ys.drop 40).take 32 = i32bools L2 := by
    rw [hdrop40]
    exact List.take_left' (i32bools_length _)
  have hreadL2 : BitInput.read_i32 BoolSliceBitInput.impl ⟨ys, 40⟩ =
      (Except.ok L2, ⟨ys, 72⟩) := by
    simpa using boolslice_read_i32_at ys 40 L2 (by omega) (by omega) hsegL2 (by omega)
  have ham255 : u8OfI8 (i8OfBits 255) = 255 := by decide
  have hext : BitInput.read_string BoolSliceBitInput.impl ⟨ys, 0⟩ max_length =
      read_string_with_length BoolSliceBitInput.impl max_length L2.toNat ⟨ys, 72⟩ := by
    rw [BitInput.read_string]
    simp only [hymark, ham255]
    rw [if_neg (by norm_num), if_neg (by norm_num)]
    simp only [hreada]
    rw [if_neg (by omega)]
    simp only [hreadL2]
    rw [usizeOfI32_of_nonneg L2 hL20 hL231]
  refine ⟨?_, ?_, ?_, ?_⟩
  · intro hmax
    rw [hshort, read_string_with_length, if_neg (by omega), if_pos hmax,
      i32OfBits_of_lt L (by omega)]
    rfl
  · intro hmax e
    rw [hshort]
    exact read_string_with_length_no_length_error BoolSliceBitInput.impl max_length L
      ⟨xs, 8⟩ hmax e
  · intro hmax
    rw [hext, read_string_with_length, if_neg (by omega), if_pos hmax,
      i32OfBits_of_lt L2.toNat (by omega)]
    have hcast : ((L2.toNat : Int)) = L2 := by omega
    rw [hcast]
    rfl
  · intro hmax e
    rw [hext]
    exact read_string_with_length_no_length_error BoolSliceBitInput.impl max_length
      L2.toNat ⟨ys, 72⟩ hmax e

/-- C7 witness: declared length 5, max_length 4 rejects with the reader at the
marker; declared length 5, max_length 5 never yields a StringLength error;
likewise on the extended path with declared length 300 against 299 and 300. -/
theorem read_string_length_bound_witness :
    (BitInput.read_string BoolSliceBitInput.impl
      ⟨i8_to_bool_array (i8OfBits 6) ++ [], 0⟩ 4 =
      (Except.error (BitInputError.StringLength ⟨5, 4⟩),
       ⟨i8_to_bool_array (i8OfBits 6) ++ [], 8⟩)) ∧
    (∀ e, (BitInput.read_string BoolSliceBitInput.impl
      ⟨i8_to_bool_array (i8OfBits 6) ++ [], 0⟩ 5).1 ≠
      Except.error (BitInputError.StringLength e)) ∧
    (BitInput.read_string BoolSliceBitInput.impl
      ⟨i8_to_bool_array (i8OfBits 255) ++ i32bools 300 ++ i32bools 300 ++ [], 0⟩ 299 =
      (Except.error (BitInputError.StringLength ⟨300, 299⟩),
       ⟨i8_to_bool_array (i8OfBits 255) ++ i32bools 300 ++ i32bools 300 ++ [], 72⟩)) ∧
    (∀ e, (BitInput.read_string BoolSliceBitInput.impl
      ⟨i8_to_bool_array (i8OfBits 255) ++ i32bools 300 ++ i32bools 300 ++ [], 0⟩ 300).1 ≠
      Except.error (BitInputError.StringLength e)) := by
  have h1 := read_string_length_bound 5 4 [] [] 300 300 (by decide) (by decide)
    (by decide) (by decide) (by decide) (by decide)
  have h2 := read_string_length_bound 5 5 [] [] 300 300 (by decide) (by decide)
    (by decide) (by decide) (by decide) (by decide)
  have h3 := read_string_length_bound 5 299 [] [] 300 300 (by decide) (by decide)
    (by decide) (by decide) (by decide) (by decide)
  have h4 := read_string_length_bound 5 300 [] [] 300 300 (by decide) (by decide)
    (by decide) (by decide) (by decide) (by decide)
  exact ⟨h1.1 (by decide), h2.2.1 (by decide),
    h3.2.2.1 (by decide), h4.2.2.2 (by decide)⟩

/-! ### Claim C8: the two owned byte-vector writers are bit-identical -/

/-- The simulation relation between the signed and unsigned byte writers: same
cursor, the unsigned vector is the byte-for-byte reinterpretation of the signed
one, and the signed vector holds genuine i8 values. -/
def I8U8OutputRel (si : I8VecBitOutput) (su : U8VecBitOutput) : Prop :=
  su.vector = si.vector.map u8OfI8 ∧ su.byte_index = si.byte_index ∧
    su.bool_index = si.bool_index ∧ ∀ x ∈ si.vector, -128 ≤ x ∧ x < 128

/-- Every byte built from a boolean octet is an i8 value. -/
theorem bools_to_i8_range (b1 b2 b3 b4 b5 b6 b7 b8 : Bool) :
    -128 ≤ bools_to_i8 b1 b2 b3 b4 b5 b6 b7 b8 ∧
      bools_to_i8 b1 b2 b3 b4 b5 b6 b7 b8 < 128 := by
  revert b1 b2 b3 b4 b5 b6 b7 b8
  decide

/-- Every byte built from a boolean list is an i8 value. -/
theorem bool_array_to_i8_range (l : List Bool) :
    -128 ≤ bool_array_to_i8 l ∧ bool_array_to_i8 l < 128 :=
  bools_to_i8_range _ _ _ _ _ _ _ _

/-- Every i8OfBits value is an i8 value. -/
theorem i8OfBits_range (n : Nat) : -128 ≤ i8OfBits n ∧ i8OfBits n < 128 := by
  unfold i8OfBits
  split <;> omega

/-- Reinterpreting an i8 value through its byte is the identity. -/
theorem i8OfBits_u8OfI8 (w : Int) (h1 : -128 ≤ w) (h2 : w < 128) :
    i8OfBits (u8OfI8 w) = w := by
  unfold i8OfBits u8OfI8
  split <;> omega

/-- getD commutes with the byte reinterpretation (whose default is 0). -/
theorem getD_map_u8 (l : List Int) (i : Nat) :
    (l.map u8OfI8).getD i 0 = u8OfI8 (l.getD i 0) := by
  induction l generalizing i with
  | nil => simp [u8OfI8]
  | cons x l ih =>
    cases i with
    | zero => simp
    | succ j => simpa using ih j

/-- set commutes with the byte reinterpretation. -/
theorem map_u8_set (l : List Int) (i : Nat) (a : Int) :
    (l.set i a).map u8OfI8 = (l.map u8OfI8).set i (u8OfI8 a) := by
  induction l generalizing i with
  | nil => simp
  | cons x l ih =>
    cases i with
    | zero => simp
    | succ j => simp [ih j]

/-- A default-covered lookup keeps the i8 range. -/
theorem getD_range (l : List Int) (i : Nat) (hr : ∀ x ∈ l, -128 ≤ x ∧ x < 128) :
    -128 ≤ l.getD i 0 ∧ l.getD i 0 < 128 := by
  rcases h : l.getD i 0 with _
  rw [List.getD] at h
  rcases he : l.get? i with _ | y
  · rw [he] at h
    simp at h
    omega
  · rw [he] at h
    simp at h
    have hy : y ∈ l := List.get?_mem he
    have := hr y hy
    omega

/-- The i8 range survives a set with a ranged value. -/
theorem range_set (l : List Int) (i : Nat) (a : Int)
    (hr : ∀ x ∈ l, -128 ≤ x ∧ x < 128) (ha : -128 ≤ a ∧ a < 128) :
    ∀ x ∈ l.set i a, -128 ≤ x ∧ x < 128 := by
  intro x hx
  rcases List.mem_or_eq_of_mem_set hx with h | h
  · exact hr x h
  · rw [h]
    exact ha

/-- The i8 range survives a push with a ranged value. -/
theorem range_append (l : List Int) (a : Int)
    (hr : ∀ x ∈ l, -128 ≤ x ∧ x < 128) (ha : -128 ≤ a ∧ a < 128) :
    ∀ x ∈ l ++ [a], -128 ≤ x ∧ x < 128 := by
  intro x hx
  rcases List.mem_append.mp hx with h | h
  · exact hr x h
  · rw [List.mem_singleton.mp h]
    exact ha

/-- The single-bit write preserves the writer simulation. -/
theorem rel_add_direct_bool (si : I8VecBitOutput) (su : U8VecBitOutput) (b : Bool)
    (h : I8U8OutputRel si su) :
    I8U8OutputRel (I8VecBitOutput.impl.add_direct_bool si b)
      (U8VecBitOutput.impl.add_direct_bool su b) := by
  obtain ⟨hv, hby, hbo, hr⟩ := h
  simp only [I8VecBitOutput.impl, U8VecBitOutput.impl, hv, hby, hbo, getD_map_u8]
  by_cases h0 : si.bool_index = 0
  · rw [if_pos h0, if_pos h0]
    exact ⟨by simp, rfl, rfl, range_append _ _ hr (bool_array_to_i8_range _)⟩
  · rw [if_neg h0, if_neg h0]
    have hcur := getD_range si.vector si.byte_index hr
    rw [i8OfBits_u8OfI8 _ hcur.1 hcur.2]
    by_cases h8 : si.bool_index + 1 = 8
    · rw [if_pos h8, if_pos h8]
      exact ⟨by rw [map_u8_set], rfl, rfl,
        range_set _ _ _ hr (bool_array_to_i8_range _)⟩
    · rw [if_neg h8, if_neg h8]
      exact ⟨by rw [map_u8_set], rfl, rfl,
        range_set _ _ _ hr (bool_array_to_i8_range _)⟩

/-- The single-byte write preserves the writer simulation (the written value is
an i8 value, as the Rust type guarantees). -/
theorem rel_add_direct_i8 (si : I8VecBitOutput) (su : U8VecBitOutput) (v : Int)
    (hvr : -128 ≤ v ∧ v < 128) (h : I8U8OutputRel si su) :
    I8U8OutputRel (I8VecBitOutput.impl.add_direct_i8 si v)
      (U8VecBitOutput.impl.add_direct_i8 su v) := by
  obtain ⟨hv, hby, hbo, hr⟩ := h
  simp only [I8VecBitOutput.impl, U8VecBitOutput.impl, hv, hby, hbo, getD_map_u8]
  by_cases h0 : si.bool_index = 0
  · rw [if_pos h0, if_pos h0]
    exact ⟨by simp, rfl, rfl, range_append _ _ hr hvr⟩
  · rw [if_neg h0, if_neg h0]
    have hcur := getD_range si.vector si.byte_index hr
    rw [i8OfBits_u8OfI8 _ hcur.1 hcur.2]
    refine ⟨?_, rfl, rfl, ?_⟩
    · rw [List.map_append, map_u8_set]
      simp
    · exact range_append _ _ (range_set _ _ _ hr (bool_array_to_i8_range _))
        (bool_array_to_i8_range _)

/-- ensure_extra_capacity (a pure reservation) preserves the writer simulation. -/
theorem rel_ensure_extra_capacity (si : I8VecBitOutput) (su : U8VecBitOutput) (n : Nat)
    (h : I8U8OutputRel si su) :
    I8U8OutputRel (I8VecBitOutput.impl.ensure_extra_capacity si n)
      (U8VecBitOutput.impl.ensure_extra_capacity su n) := h

/-- Bulk boolean writes preserve the writer simulation. -/
theorem rel_add_direct_bools_from_slice (l : List Bool) :
    ∀ (si : I8VecBitOutput) (su : U8VecBitOutput), I8U8OutputRel si su →
    I8U8OutputRel (BitOutput.add_direct_bools_from_slice I8VecBitOutput.impl si l)
      (BitOutput.add_direct_bools_from_slice U8VecBitOutput.impl su l) := by
  induction l with
  | nil => intro si su h; exact h
  | cons b l ih =>
    intro si su h
    simp only [BitOutput.add_direct_bools_from_slice] at ih ⊢
    simp only [List.foldl_cons]
    exact ih _ _ (rel_add_direct_bool si su b h)

/-- Sized writes preserve the writer simulation. -/
theorem rel_add_direct_sized_u64 (si : I8VecBitOutput) (su : U8VecBitOutput)
    (value bits : Nat) (h : I8U8OutputRel si su) :
    I8U8OutputRel (BitOutput.add_direct_sized_u64 I8VecBitOutput.impl si value bits)
      (BitOutput.add_direct_sized_u64 U8VecBitOutput.impl su value bits) :=
  rel_add_direct_bools_from_slice _ si su h

/-- Byte-decomposed direct writes preserve the writer simulation. -/
theorem rel_add_direct_u8 (si : I8VecBitOutput) (su : U8VecBitOutput) (n : Nat)
    (h : I8U8OutputRel si su) :
    I8U8OutputRel (BitOutput.add_direct_u8 I8VecBitOutput.impl si n)
      (BitOutput.add_direct_u8 U8VecBitOutput.impl su n) :=
  rel_add_direct_i8 si su _ (i8OfBits_range _) h

/-- 16-bit direct writes preserve the writer simulation. -/
theorem rel_add_direct_i16 (si : I8VecBitOutput) (su : U8VecBitOutput) (v : Int)
    (h : I8U8OutputRel si su) :
    I8U8OutputRel (BitOutput.add_direct_i16 I8VecBitOutput.impl si v)
      (BitOutput.add_direct_i16 U8VecBitOutput.impl su v) :=
  rel_add_direct_i8 _ _ _ (i8OfBits_range _)
    (rel_add_direct_i8 si su _ (i8OfBits_range _) h)

/-- Unsigned 16-bit direct writes preserve the writer simulation. -/
theorem rel_add_direct_u16 (si : I8VecBitOutput) (su : U8VecBitOutput) (n : Nat)
    (h : I8U8OutputRel si su) :
    I8U8OutputRel (BitOutput.add_direct_u16 I8VecBitOutput.impl si n)
      (BitOutput.add_direct_u16 U8VecBitOutput.impl su n) :=
  rel_add_direct_i8 _ _ _ (i8OfBits_range _)
    (rel_add_direct_i8 si su _ (i8OfBits_range _) h)

/-- 32-bit direct writes preserve the writer simulation. -/
theorem rel_add_direct_i32 (si : I8VecBitOutput) (su : U8VecBitOutput) (v : Int)
    (h : I8U8OutputRel si su) :
    I8U8OutputRel (BitOutput.add_direct_i32 I8VecBitOutput.impl si v)
      (BitOutput.add_direct_i32 U8VecBitOutput.impl su v) :=
  rel_add_direct_i8 _ _ _ (i8OfBits_range _)
    (rel_add_direct_i8 _ _ _ (i8OfBits_range _)
      (rel_add_direct_i8 _ _ _ (i8OfBits_range _)
        (rel_add_direct_i8 si su _ (i8OfBits_range _) h)))

/-- Unsigned 32-bit direct writes preserve the writer simulation. -/
theorem rel_add_direct_u32 (si : I8VecBitOutput) (su : U8VecBitOutput) (n : Nat)
    (h : I8U8OutputRel si su) :
    I8U8OutputRel (BitOutput.add_direct_u32 I8VecBitOutput.impl si n)
      (BitOutput.add_direct_u32 U8VecBitOutput.impl su n) :=
  rel_add_direct_i8 _ _ _ (i8OfBits_range _)
    (rel_add_direct_i8 _ _ _ (i8OfBits_range _)
      (rel_add_direct_i8 _ _ _ (i8OfBits_range _)
        (rel_add_direct_i8 si su _ (i8OfBits_range _) h)))

/-- Self-describing variable-width writes preserve the writer simulation. -/
theorem rel_add_var_u64 (si : I8VecBitOutput) (su : U8VecBitOutput) (v : Nat)
    (h : I8U8OutputRel si su) :
    I8U8OutputRel (BitOutput.add_var_u64 I8VecBitOutput.impl si v)
      (BitOutput.add_var_u64 U8VecBitOutput.impl su v) := by
  rw [BitOutput.add_var_u64, BitOutput.add_var_u64]
  split
  · exact rel_add_direct_sized_u64 _ _ _ _
      (rel_add_direct_sized_u64 _ _ _ _ (rel_ensure_extra_capacity _ _ _ h))
  · exact rel_add_direct_bool _ _ _
      (rel_add_direct_sized_u64 _ _ _ _ (rel_ensure_extra_capacity _ _ _ h))

/-- The per-unit write loop of the string codec preserves the writer simulation. -/
theorem rel_add_string_units (units : List Nat) :
    ∀ (si : I8VecBitOutput) (su : U8VecBitOutput) (minu bit_count : Nat),
    I8U8OutputRel si su →
    I8U8OutputRel (add_string_units I8VecBitOutput.impl si units minu bit_count)
      (add_string_units U8VecBitOutput.impl su units minu bit_count) := by
  induction units with
  | nil => intro si su minu bc h; exact h
  | cons u units ih =>
    intro si su minu bc h
    simp only [add_string_units] at ih ⊢
    simp only [List.foldl_cons]
    exact ih _ _ minu bc (rel_add_direct_sized_u64 si su _ _ h)

/-- String writes preserve the writer simulation. -/
theorem rel_add_string (si : I8VecBitOutput) (su : U8VecBitOutput)
    (v : Option (List Char)) (h : I8U8OutputRel si su) :
    I8U8OutputRel (BitOutput.add_string I8VecBitOutput.impl si v)
      (BitOutput.add_string U8VecBitOutput.impl su v) := by
  cases v with
  | none =>
    exact rel_add_direct_i8 _ _ _ (by norm_num)
      (rel_ensure_extra_capacity _ _ _ h)
  | some string =>
    simp only [BitOutput.add_string]
    have h29 := rel_ensure_extra_capacity si su 29 h
    by_cases hl : (encode_utf16 string).length < 254
    · rw [if_pos hl, if_pos hl]
      have hhdr := rel_add_direct_i8 _ _ (i8OfBits ((encode_utf16 string).length + 1))
        (i8OfBits_range _) h29
      by_cases hs : string ≠ []
      · rw [if_pos hs, if_pos hs]
        by_cases hd : 0 < (encode_utf16 string).max?.getD 0 -
            (encode_utf16 string).min?.getD 0
        · rw [if_pos hd, if_pos hd]
          exact rel_add_string_units _ _ _ _ _
            (rel_ensure_extra_capacity _ _ _
              (rel_add_direct_sized_u64 _ _ _ _ (rel_add_direct_u16 _ _ _ hhdr)))
        · rw [if_neg hd, if_neg hd]
          exact rel_add_direct_sized_u64 _ _ _ _ (rel_add_direct_u16 _ _ _ hhdr)
      · rw [if_neg hs, if_neg hs]
        exact hhdr
    · rw [if_neg hl, if_neg hl]
      have hhdr := rel_add_direct_i32 _ _ (i32OfBits (encode_utf16 string).length)
        (rel_add_direct_i8 _ _ (-1) (by norm_num) (rel_ensure_extra_capacity _ _ 32 h29))
      by_cases hs : string ≠ []
      · rw [if_pos hs, if_pos hs]
        by_cases hd : 0 < (encode_utf16 string).max?.getD 0 -
            (encode_utf16 string).min?.getD 0
        · rw [if_pos hd, if_pos hd]
          exact rel_add_string_units _ _ _ _ _
            (rel_ensure_extra_capacity _ _ _
              (rel_add_direct_sized_u64 _ _ _ _ (rel_add_direct_u16 _ _ _ hhdr)))
        · rw [if_neg hd, if_neg hd]
          exact rel_add_direct_sized_u64 _ _ _ _ (rel_add_direct_u16 _ _ _ hhdr)
      · rw [if_neg hs, if_neg hs]
        exact hhdr

/-- A sequence of BitOutput add-operations (direct variants behave identically
up to capacity reservation, which never changes contents). Machine-integer
payloads are carried canonically: runOp reduces them to their bit width before
the call, exactly as the Rust argument types guarantee. -/
inductive BitOutputOp where
  | opBool (value : Bool)
  | opI8 (value : Int)
  | opU8 (value : Nat)
  | opI16 (value : Int)
  | opU16 (value : Nat)
  | opI32 (value : Int)
  | opU32 (value : Nat)
  | opSizedU64 (value : Nat) (bits : Nat)
  | opVarU64 (value : Nat)
  | opString (value : Option (List Char))
  | opEnsure (n : Nat)

/-- Runs one add-operation through a writer. -/
def runOp {σ : Type} (T : BitOutput σ) (s : σ) : BitOutputOp → σ
  | BitOutputOp.opBool b => T.add_bool s b
  | BitOutputOp.opI8 v => T.add_i8 s (i8OfBits (u8OfI8 v))
  | BitOutputOp.opU8 v => T.add_u8 s (v % 256)
  | BitOutputOp.opI16 v => T.add_i16 s (i16OfBits (bits16OfI16 v))
  | BitOutputOp.opU16 v => T.add_u16 s (v % 65536)
  | BitOutputOp.opI32 v => T.add_i32 s (i32OfBits (bits32OfI32 v))
  | BitOutputOp.opU32 v => T.add_u32 s (v % 4294967296)
  | BitOutputOp.opSizedU64 v bits =>
      T.add_sized_u64 s (v % 18446744073709551616) (min bits 64)
  | BitOutputOp.opVarU64 v => T.add_var_u64 s (v % 18446744073709551616)
  | BitOutputOp.opString str => T.add_string s str
  | BitOutputOp.opEnsure n => T.ensure_extra_capacity s n

/-- Runs a sequence of add-operations through a writer. -/
def runOps {σ : Type} (T : BitOutput σ) (s : σ) (ops : List BitOutputOp) : σ :=
  ops.foldl (runOp T) s

/-- Every single add-operation preserves the writer simulation. -/
theorem rel_runOp (si : I8VecBitOutput) (su : U8VecBitOutput) (op : BitOutputOp)
    (h : I8U8OutputRel si su) :
    I8U8OutputRel (runOp I8VecBitOutput.impl si op) (runOp U8VecBitOutput.impl su op) := by
  cases op with
  | opBool b =>
    exact rel_add_direct_bool _ _ _ (rel_ensure_extra_capacity _ _ _ h)
  | opI8 v =>
    exact rel_add_direct_i8 _ _ _ (i8OfBits_range _) (rel_ensure_extra_capacity _ _ _ h)
  | opU8 v =>
    exact rel_add_direct_u8 _ _ _ (rel_ensure_extra_capacity _ _ _ h)
  | opI16 v =>
    exact rel_add_direct_i16 _ _ _ (rel_ensure_extra_capacity _ _ _ h)
  | opU16 v =>
    exact rel_add_direct_u16 _ _ _ (rel_ensure_extra_capacity _ _ _ h)
  | opI32 v =>
    exact rel_add_direct_i32 _ _ _ (rel_ensure_extra_capacity _ _ _ h)
  | opU32 v =>
    exact rel_add_direct_u32 _ _ _ (rel_ensure_extra_capacity _ _ _ h)
  | opSizedU64 v bits =>
    exact rel_add_direct_sized_u64 _ _ _ _ (rel_ensure_extra_capacity _ _ _ h)
  | opVarU64 v =>
    exact rel_add_var_u64 _ _ _ h
  | opString str =>
    exact rel_add_string _ _ _ h
  | opEnsure n =>
    exact rel_ensure_extra_capacity _ _ _ h

/-- C8: cross-backing parity. For every sequence of BitOutput add-operations
applied to a fresh I8VecBitOutput and a fresh U8VecBitOutput, the resulting
backing vectors are identical byte for byte: the unsigned vector is exactly the
signed vector with each i8 reinterpreted as a u8 (and the two cursors agree). -/
theorem cross_backing_parity (ops : List BitOutputOp) :
    (runOps U8VecBitOutput.impl ⟨[], 0, 0⟩ ops).vector =
      (runOps I8VecBitOutput.impl ⟨[], 0, 0⟩ ops).vector.map u8OfI8 ∧
    (runOps U8VecBitOutput.impl ⟨[], 0, 0⟩ ops).byte_index =
      (runOps I8VecBitOutput.impl ⟨[], 0, 0⟩ ops).byte_index ∧
    (runOps U8VecBitOutput.impl ⟨[], 0, 0⟩ ops).bool_index =
      (runOps I8VecBitOutput.impl ⟨[], 0, 0⟩ ops).bool_index := by
  have hrel : ∀ (ops : List BitOutputOp) (si : I8VecBitOutput) (su : U8VecBitOutput),
      I8U8OutputRel si su →
      I8U8OutputRel (runOps I8VecBitOutput.impl si ops) (runOps U8VecBitOutput.impl su ops) := by
    intro ops
    induction ops with
    | nil => intro si su h; exact h
    | cons op ops ih =>
      intro si su h
      simp only [runOps, List.foldl_cons] at ih ⊢
      exact ih _ _ (rel_runOp si su op h)
  have h0 : I8U8OutputRel ⟨[], 0, 0⟩ ⟨[], 0, 0⟩ := ⟨by simp, rfl, rfl, by simp⟩
  have := hrel ops ⟨[], 0, 0⟩ ⟨[], 0, 0⟩ h0
  exact ⟨this.1, this.2.1, this.2.2.1⟩
